import Mathlib

namespace CodeBundler

/-!
Verification of the codebundler core against its specification.

Python strings are modelled as lists of characters (type Str below); file
contents are a single Str, files are split into lines explicitly.  Machine
integers do not occur; wall-clock times (float seconds in the source) are
modelled as integer milliseconds.  Every definition is translated from the repository
sources (codebundler/core/filters.py, codebundler/core/tree.py,
codebundler/core/combiner.py, codebundler/utils/watcher.py) except where a
doc comment says the item is modelled from the spec because the module is
absent from the source tree.
-/

/-- Python strings are modelled as lists of characters. -/

abbrev Str := List Char

/-- Coerce a Lean string literal into the character-list model. -/

def chars (s : String) : Str := s.data

/-- Python str.lstrip (no argument): drop leading whitespace. -/

def lstrip (l : Str) : Str := l.dropWhile Char.isWhitespace

/-- Python str.rstrip (no argument): drop trailing whitespace. -/

def rstrip (l : Str) : Str := (l.reverse.dropWhile Char.isWhitespace).reverse

/-- Python str.strip (no argument). -/

def pyStrip (l : Str) : Str := rstrip (lstrip l)

/-- Python str.lower, restricted to ASCII case folding. -/

def lowerStr (l : Str) : Str := l.map Char.toLower

/-- Python str.startswith on the character-list model. -/

def startsList : Str → Str → Bool
  | [], _ => true
  | _ :: _, [] => false
  | p :: ps, c :: cs => p = c && startsList ps cs

/-- Python substring containment (the in operator on strings). -/

def containsSub : Str → Str → Bool
  | l, sub => if startsList sub l then true else
      match l with
      | [] => false
      | _ :: cs => containsSub cs sub

/-- Everything after the first occurrence of sep, assuming sep occurs;
returns the empty string when sep does not occur. -/

def dropThroughFirst (sep : Str) : Str → Str
  | [] => []
  | c :: cs => if startsList sep (c :: cs) then (c :: cs).drop sep.length
               else dropThroughFirst sep cs

/-- Python s.split(sep, 1) final element: the part after the first
occurrence of sep when present, the whole string otherwise. -/

def splitOnceRest (sep : Str) (l : Str) : Str :=
  if containsSub l sep then dropThroughFirst sep l else l

/-- Python s.split(sep, 1) index 1 for a single-character separator that is
known to occur (used for header values after the first colon). -/

def afterColon (l : Str) : Str := dropThroughFirst [':'] l

/-- Python s.split on a single-character separator (full split). -/

def splitChar (c : Char) (l : Str) : List Str := l.splitOn c

/-- Index of the last occurrence of a character, or -1 when absent,
mirroring Python str.rfind for a single character. -/

def rlastIdx (c : Char) : Str → Int
  | [] => -1
  | x :: xs =>
      let r := rlastIdx c xs
      if r ≥ 0 then r + 1 else if x = c then 0 else -1

/-- posixpath.splitext: split off the extension beginning at the last dot,
unless the dot lies before the last path separator or the basename consists
only of leading dots (hidden files have no extension). -/

def splitext (p : Str) : Str × Str :=
  let sepIdx := rlastIdx '/' p
  let dotIdx := rlastIdx '.' p
  if sepIdx < dotIdx then
    let base := (p.take dotIdx.toNat).drop (sepIdx + 1).toNat
    if base.any (fun ch => ch ≠ '.') then
      (p.take dotIdx.toNat, p.drop dotIdx.toNat)
    else (p, [])
  else (p, [])

/-- codebundler.core.filters.has_matching_extension: with no extensions
every file matches; otherwise the splitext extension of the filename must
equal one of the listed extensions case-insensitively. -/

def has_matching_extension (filename : Str) (extensions : List Str) : Bool :=
  if extensions.isEmpty then true
  else
    let fileExt := (splitext filename).2
    extensions.any (fun ext => lowerStr fileExt == lowerStr ext)

/-- codebundler.core.filters.should_include: empty keyword list includes
everything, otherwise some keyword must be a substring of the filename. -/

def should_include (filename : Str) (includeNames : List Str) : Bool :=
  if includeNames.isEmpty then true
  else includeNames.any (fun keyword => containsSub filename keyword)

/-- codebundler.core.filters.should_ignore: a keyword substring match on
the filename or on the relative path forces the file to be ignored. -/

def should_ignore (filename relPath : Str)
    (ignoreNames ignorePaths : List Str) : Bool :=
  ignoreNames.any (fun keyword => containsSub filename keyword) ||
  ignorePaths.any (fun keyword => containsSub relPath keyword)

/-! Manifest (tree file) parsing, from codebundler/core/tree.py. -/

/-- Result record of parse_tree_file: header fields plus the ordered list
of included paths.  Optional header fields stay none when never seen,
mirroring the None initialisation in the source. -/

structure TreeParse where
  source_dir_in_file : Option Str
  output_file_in_file : Option Str
  extensions_in_file : List Str
  remove_comments_in_file : Option Bool
  remove_docstrings_in_file : Option Bool
  included_paths : List Str
deriving Repr, DecidableEq

/-- Initial parser state of parse_tree_file. -/

def initTreeParse : TreeParse :=
  ⟨none, none, [], none, none, []⟩

/-- Header key prefixes recognised by parse_tree_file (compared against the
lowercased stripped line). -/

def keySourceDir : Str := chars "# source directory:"

/-- Header key for the output file. -/

def keyOutputFile : Str := chars "# output file:"

/-- Header key for the extension list. -/

def keyExtensions : Str := chars "# extensions:"

/-- Legacy single-extension header key. -/

def keyExtension : Str := chars "# extension:"

/-- Header key for the strip-comments flag. -/

def keyStripComments : Str := chars "# strip comments:"

/-- Header key for the remove-docstrings flag. -/

def keyRemoveDocstrings : Str := chars "# remove docstrings:"

/-- Path separator marker scanned for in non-header lines. -/

def sepMark : Str := chars "──"

/-- One loop iteration of parse_tree_file over one line of the tree file:
blank lines are skipped, lines whose stripped form starts with a hash are
matched case-insensitively against the known header keys (each recognized
key overwrites its field), and any other line containing the separator
marker contributes the stripped text after the first marker occurrence as
an included path. -/

def parseTreeLine (acc : TreeParse) (line : Str) : TreeParse :=
  let stripped := pyStrip line
  if stripped.isEmpty then acc
  else if startsList (chars "#") stripped then
    let lower := lowerStr stripped
    if startsList keySourceDir lower then
      { acc with source_dir_in_file := some (pyStrip (afterColon stripped)) }
    else if startsList keyOutputFile lower then
      { acc with output_file_in_file := some (pyStrip (afterColon stripped)) }
    else if startsList keyExtensions lower then
      let extsStr := pyStrip (afterColon stripped)
      { acc with extensions_in_file :=
          (splitChar ',' extsStr).filterMap (fun e =>
            let s := pyStrip e
            if s.isEmpty then none else some s) }
    else if startsList keyExtension lower then
      let ext := pyStrip (afterColon stripped)
      if ext.isEmpty then acc else { acc with extensions_in_file := [ext] }
    else if startsList keyStripComments lower then
      let val := lowerStr (pyStrip (afterColon stripped))
      { acc with remove_comments_in_file := some (val == chars "yes") }
    else if startsList keyRemoveDocstrings lower then
      let val := lowerStr (pyStrip (afterColon stripped))
      { acc with remove_docstrings_in_file := some (val == chars "yes") }
    else acc
  else if containsSub stripped sepMark then
    { acc with included_paths :=
        acc.included_paths ++ [pyStrip (splitOnceRest sepMark stripped)] }
  else acc

/-- codebundler.core.tree.parse_tree_file over the lines of the tree file
(the source iterates over the open file line by line; reading errors,
which return the all-empty tuple, are outside this pure model). -/

def parse_tree_file (lines : List Str) : TreeParse :=
  lines.foldl parseTreeLine initTreeParse

/-! Tree file generation, from codebundler/core/tree.py (generate_tree_file
and its nested walk_tree).  The filesystem is modelled as a finite tree of
named entries; os.listdir of a directory returns the names of its children,
which walk_tree sorts lexicographically before visiting. -/

/-- A filesystem entry: a plain file or a directory with children. -/

inductive FSEntry where
  | file (name : Str)
  | dir (name : Str) (children : List FSEntry)
deriving Repr

/-- Name of a filesystem entry. -/

def FSEntry.name : FSEntry → Str
  | .file n => n
  | .dir n _ => n

/-- Lexicographic comparison of strings by code point, as Python sorted
uses on str. -/

def strLe : Str → Str → Bool
  | [], _ => true
  | _ :: _, [] => false
  | c :: cs, d :: ds => c < d || (c = d && strLe cs ds)

/-- Insert an entry into a name-sorted list of entries. -/

def insertByName (e : FSEntry) : List FSEntry → List FSEntry
  | [] => [e]
  | x :: xs => if strLe e.name x.name then e :: x :: xs
               else x :: insertByName e xs

/-- Sort entries by name (insertion sort); models sorted(os.listdir(p)). -/

def sortByName : List FSEntry → List FSEntry
  | [] => []
  | e :: es => insertByName e (sortByName es)

/-- Relative path of a child named n inside the directory with relative
path rdir, as os.path.relpath(join(cur, n), source_dir) yields it. -/

def relJoin (rdir n : Str) : Str :=
  if rdir.isEmpty then n else rdir ++ '/' :: n

/-- Connector glyphs put before an entry, last entry of a listing vs not. -/

def connector (isLast : Bool) : Str :=
  if isLast then chars "└── " else chars "├── "

/-- Indentation block appended to the prefix when recursing into a
directory, last entry of a listing vs not. -/

def indentBlock (isLast : Bool) : Str :=
  if isLast then chars "    " else chars "│   "

/-- One line produced by walk_tree, decomposed into the box-drawing prefix
plus connector (display), the relative path, and whether the line was
produced by the file branch (which is exactly when file_count was
incremented).  The tree-file line is display ++ relPath and the match
count is the number of records with isFile true. -/

structure Emitted where
  display : Str
  relPath : Str
  isFile : Bool
deriving Repr, DecidableEq

/-- Selection criteria passed to generate_tree_file. -/

structure Criteria where
  extensions : List Str
  ignoreNames : List Str
  ignorePaths : List Str
  includeNames : List Str
deriving Repr

/-- walk_tree of generate_tree_file over an already-sorted list of sibling
entries: a file is listed (and counted) when it passes the extension,
ignore and include filters; a directory is listed unless ignored and its
sorted children are then visited with the extended prefix; an ignored
directory is neither listed nor entered.  The fuel argument bounds the
recursion so the definition is structural; every theorem below holds for
every fuel value, and any fuel at least the number of entries in the tree
reproduces the source recursion exactly. -/

def walkE (crit : Criteria) : Nat → Str → Str → List FSEntry → List Emitted
  | 0, _, _, _ => []
  | _ + 1, _, _, [] => []
  | fuel + 1, rdir, pre, t :: ts =>
      let isLast := ts.isEmpty
      (match t with
       | .file n =>
           let rel := relJoin rdir n
           if has_matching_extension n crit.extensions &&
              !should_ignore n rel crit.ignoreNames crit.ignorePaths &&
              should_include n crit.includeNames then
             [⟨pre ++ connector isLast, rel, true⟩]
           else []
       | .dir n cs =>
           let rel := relJoin rdir n
           if !should_ignore n rel crit.ignoreNames crit.ignorePaths then
             ⟨pre ++ connector isLast, rel, false⟩ ::
               walkE crit fuel rel (pre ++ indentBlock isLast) (sortByName cs)
           else [])
      ++ walkE crit fuel rdir pre ts

/-- The body lines of the generated tree file, one per emitted record. -/

def generateLines (crit : Criteria) (fuel : Nat) (ts : List FSEntry) : List Str :=
  (walkE crit fuel [] [] (sortByName ts)).map (fun e => e.display ++ e.relPath)

/-- The match count returned by generate_tree_file: file_count is
incremented exactly once per file line appended. -/

def generateCount (crit : Criteria) (fuel : Nat) (ts : List FSEntry) : Nat :=
  ((walkE crit fuel [] [] (sortByName ts)).filter (fun e => e.isFile)).length

/-- Join a list of lines with newline separators, as a newline join. -/

def joinNL : List Str → Str
  | [] => []
  | [l] => l
  | l :: ls => l ++ '\n' :: joinNL ls

/-- The header lines written by generate_tree_file before the listing (the
output-file line is only present when an output file was supplied). -/

def genHeaderLines (sourceDir : Str) (outputFile : Option Str)
    (extensions : List Str) (removeComments removeDocstrings : Bool) : List Str :=
  let extsJoined := commaJoin extensions
  [chars "# Source Directory: " ++ sourceDir] ++
  (match outputFile with
   | some o => [chars "# Output File: " ++ o]
   | none => []) ++
  [chars "# Extensions: " ++ extsJoined,
   chars "# Strip Comments: " ++ yesNo removeComments,
   chars "# Remove Docstrings: " ++ yesNo removeDocstrings,
   chars "# Proposed inclusion list for files with extensions: " ++ extsJoined,
   chars "# Delete or comment out any lines for files you want to exclude.",
   chars "# Lines for directories are ignored when combining (only files matter)."]
where
  /-- Python ", ".join. -/
  commaJoin : List Str → Str
    | [] => []
    | [e] => e
    | e :: es => e ++ chars ", " ++ commaJoin es
  /-- The yes/no rendering of a flag. -/
  yesNo (b : Bool) : Str := if b then chars "yes" else chars "no"

/-- The full text written by generate_tree_file: each header line with a
trailing newline, one extra newline (the last header write ends in two
newlines), then the body lines joined by newlines. -/

def generate_tree_text (sourceDir : Str) (outputFile : Option Str)
    (crit : Criteria) (removeComments removeDocstrings : Bool)
    (fuel : Nat) (ts : List FSEntry) : Str :=
  ((genHeaderLines sourceDir outputFile crit.extensions
      removeComments removeDocstrings).map (fun l => l ++ ['\n'])).flatten
    ++ '\n' :: joinNL (generateLines crit fuel ts)

/-- Split file text into lines at newline characters (Python iteration
over an open text file, with the trailing newlines that iteration keeps
removed by the strip that parse_tree_file applies to every line anyway). -/

def splitLines : Str → List Str
  | [] => [[]]
  | c :: cs =>
      if c = '\n' then [] :: splitLines cs
      else
        match splitLines cs with
        | [] => [[c]]
        | l :: ls => (c :: l) :: ls

/-! Combining, from codebundler/core/combiner.py (combine_from_filelist).
The imported helpers apply_transformations and get_comment_prefix live in
codebundler/core/transformers.py, which is not part of the source tree
here, so they are taken as parameters: every theorem holds for every
behaviour of those two functions. -/

/-- Outcome of trying to open and read one file: the path is not a regular
file, the bytes do not decode as UTF-8, reading raises some other error,
or the list of its lines (each line keeping its trailing newline, as
readlines yields them). -/

inductive ReadResult where
  | missing
  | notText
  | readFail
  | ok (lines : List Str)

/-- Whether a read outcome delivers lines. -/

def ReadResult.isOk : ReadResult → Bool
  | .ok _ => true
  | _ => false

/-- os.path.join for a relative second component, for already normalised
inputs: insert a slash unless the base is empty or already ends in one. -/

def pathJoin (a b : Str) : Str :=
  if a.isEmpty then b
  else if a.getLast? = some '/' then a ++ b
  else a ++ '/' :: b

/-- The loop of combine_from_filelist: walk the manifest entries in order;
drop an entry when its extension does not match; drop it with a warning
when the resolved path is missing, unreadable or not decodable; otherwise
keep the transformed lines.  Each kept entry becomes one block written to
the output, and processed_count is incremented exactly once per block. -/

def combineBlocks (fs : Str → ReadResult)
    (transform : List Str → Str → List Str)
    (sourceDir : Str) (extensions : List Str) :
    List Str → List (Str × List Str)
  | [] => []
  | rel :: rest =>
      if !has_matching_extension rel extensions then
        combineBlocks fs transform sourceDir extensions rest
      else
        match fs (pathJoin sourceDir rel) with
        | .ok ls =>
            (rel, transform ls (splitext rel).2) ::
              combineBlocks fs transform sourceDir extensions rest
        | _ => combineBlocks fs transform sourceDir extensions rest

/-- Rendering of one kept entry into the output file: a BEGIN marker with
the comment token of the entry's own extension, the transformed lines
verbatim, then an END marker, exactly as the writes in the source. -/

def renderBlock (commentTokenOf : Str → Str) (b : Str × List Str) : Str :=
  let tok := commentTokenOf (splitext b.1).2
  tok ++ chars " ==== BEGIN FILE: " ++ b.1 ++ chars " ====\n"
    ++ b.2.flatten
    ++ chars "\n" ++ tok ++ chars " ==== END FILE: " ++ b.1 ++ chars " ====\n\n"

/-- The header line written before any blocks, using the comment token of
the first extension (or of .txt when the extension list is empty). -/

def combineIntro (commentTokenOf : Str → Str) (extensions : List Str) : Str :=
  commentTokenOf (match extensions with | [] => chars ".txt" | e :: _ => e)
    ++ chars " Files combined from the manually edited tree.\n\n"

/-- Opening the destination with mode w truncates it: whatever content the
file had before is discarded and writing starts from the empty string. -/

def openTruncate (_previous : Str) : Str := []

/-- Content of the output file after combine_from_filelist runs, given the
previous content of that file: the truncated file, then the intro line,
then the rendered blocks in manifest order. -/

def combine_from_filelist_output (previous : Str) (fs : Str → ReadResult)
    (commentTokenOf : Str → Str) (transform : List Str → Str → List Str)
    (sourceDir : Str) (extensions : List Str) (filelist : List Str) : Str :=
  openTruncate previous ++ combineIntro commentTokenOf extensions ++
    ((combineBlocks fs transform sourceDir extensions filelist).map
      (renderBlock commentTokenOf)).flatten

/-- The processed_count returned by combine_from_filelist. -/

def combine_from_filelist_count (fs : Str → ReadResult)
    (transform : List Str → Str → List Str)
    (sourceDir : Str) (extensions : List Str) (filelist : List Str) : Nat :=
  (combineBlocks fs transform sourceDir extensions filelist).length

/-- Directory part of a path: everything before the last slash, empty for
a bare filename (standing for the current directory). -/

def dirName (p : Str) : Str :=
  (p.reverse.dropWhile (fun c => c ≠ '/')).reverse.dropLast

/-- Path(output_file).parent.mkdir(parents=True, exist_ok=True), recorded
on a set of existing directories: the parent directory of the output file
is present afterwards, and creating it again changes nothing. -/

def ensureParentDir (dirs : List Str) (outputFile : Str) : List Str :=
  if dirName outputFile ∈ dirs then dirs else dirs ++ [dirName outputFile]

/-! The change watcher, from codebundler/utils/watcher.py
(CodeBundlerHandler).  Event timestamps (time.time float seconds in the
source) are modelled as integer milliseconds; the debounce window of 0.5
seconds becomes the constant 500. -/

/-- The debounce window (self.debounce_time, 0.5 s) in milliseconds. -/

def debounceMs : Int := 500

/-- Configuration of CodeBundlerHandler: the watched directory, the
filters, the optional manifest file list and whether tree mode is active.
There is no output-file field: the handler is never told the output path.
A registered callback is assumed (dispatches are returned as values). -/

structure WatchConfig where
  source_dir : Str
  extensions : List Str
  ignore_names : List Str
  ignore_paths : List Str
  include_names : List Str
  filelist : List Str
  use_tree : Bool

/-- Mutable state of CodeBundlerHandler: last_run starts at 0 and
last_changed_file at none. -/

structure WatchState where
  last_run : Int
  last_changed_file : Option Str

/-- A filesystem event as watchdog delivers it, with the wall-clock time
at which the handler processes it. -/

structure FSEvent where
  src_path : Str
  is_directory : Bool
  time : Int

/-- Length of the longest common leading segment of two lists. -/

def commonLen : List Str → List Str → Nat
  | a :: as, b :: bs => if a = b then commonLen as bs + 1 else 0
  | _, _ => 0

/-- posixpath.relpath for already-normalised inputs: split both paths into
components, drop the common leading components, climb with dot-dot for
each remaining component of the start and descend with the rest. -/

def relPath (path start : Str) : Str :=
  let pcs := (splitChar '/' path).filter (fun c => !c.isEmpty)
  let scs := (splitChar '/' start).filter (fun c => !c.isEmpty)
  let i := commonLen pcs scs
  let rel := (List.replicate (scs.length - i) (chars "..")) ++ pcs.drop i
  match rel with
  | [] => chars "."
  | r :: rs => joinSlash r rs
where
  /-- Join components with slashes. -/
  joinSlash (r : Str) : List Str → Str
    | [] => r
    | x :: xs => r ++ '/' :: joinSlash x xs

/-- Python replace of backslashes by slashes, applied to relative paths. -/

def slashify (l : Str) : Str := l.map (fun c => if c = '\\' then '/' else c)

/-- The checks of on_any_event that depend only on the configuration and
the event, in source order: directory events are dropped, then the
extension filter on the full event path, then the ignore and include
filters on basename and relative path, then in tree mode with a non-empty
file list the membership test against the manifest entries. -/

def filtersPass (cfg : WatchConfig) (ev : FSEvent) : Bool :=
  if ev.is_directory then false
  else if !has_matching_extension ev.src_path cfg.extensions then false
  else
    let filename := (ev.src_path.reverse.takeWhile (fun c => c ≠ '/')).reverse
    let rel := slashify (relPath ev.src_path cfg.source_dir)
    if should_ignore filename rel cfg.ignore_names cfg.ignore_paths then false
    else if !should_include filename cfg.include_names then false
    else if cfg.use_tree && !cfg.filelist.isEmpty && !(rel ∈ cfg.filelist) then false
    else true

/-- The relative path the handler reports for an event. -/

def eventRel (cfg : WatchConfig) (ev : FSEvent) : Str :=
  slashify (relPath ev.src_path cfg.source_dir)

/-- CodeBundlerHandler.on_any_event: events failing the filters are
dropped with the state unchanged; an accepted event arriving less than the
debounce window after the last accepted dispatch is dropped; otherwise the
state is updated and the callback is invoked with the relative path.  The
returned option is the callback invocation (none means zero callbacks). -/

def on_any_event (cfg : WatchConfig) (st : WatchState) (ev : FSEvent) :
    WatchState × Option Str :=
  if !filtersPass cfg ev then (st, none)
  else if ev.time - st.last_run < debounceMs then (st, none)
  else ({ last_run := ev.time, last_changed_file := some (eventRel cfg ev) },
        some (eventRel cfg ev))

/-- Process a sequence of events in order, collecting every callback
invocation that the handler dispatches. -/

def processEvents (cfg : WatchConfig) (st : WatchState) :
    List FSEvent → WatchState × List Str
  | [] => (st, [])
  | ev :: evs =>
      let r := on_any_event cfg st ev
      let rest := processEvents cfg r.1 evs
      (rest.1, (match r.2 with | some p => [p] | none => []) ++ rest.2)

/-! Helper lemmas about the watcher. -/

/-- C1, counterexample.  The watch configuration of the scenario: watching
directory watched with output file watched/bundle.py (the output path is
not part of the handler state because the source never passes it in). -/

def c1Cfg : WatchConfig :=
  ⟨chars "watched", [chars ".py"], [], [], [], [], false⟩

/-- C1, counterexample event: a change event whose path is exactly the
configured output file watched/bundle.py, processed one second after
start, well outside the debounce window. -/

def c1Ev : FSEvent := ⟨chars "watched/bundle.py", false, 1000⟩

/-! The combiner claims. -/

/-- An entry of the manifest file list survives combine_from_filelist
exactly when its extension matches and the resolved path reads as text:
this is the only re-checking done (ignore and include filters never reappear). -/

def acceptedEntry (fs : Str → ReadResult) (sourceDir : Str)
    (extensions : List Str) (rel : Str) : Bool :=
  has_matching_extension rel extensions && (fs (pathJoin sourceDir rel)).isOk

/-- A small concrete filesystem for the combiner witness: ok.py reads
fine, bad.py fails UTF-8 decoding, everything else is missing. -/

def c6Fs : Str → ReadResult := fun p =>
  if p = chars "root/ok.py" then .ok [chars "print(1)\n"]
  else if p = chars "root/bad.py" then .notText
  else .missing

/-- Modelled from the spec: combine_source_files (the combineAll
operation) is imported by the command layer from codebundler.core.combiner
but is absent from the source tree here.  Per the spec it walks the root,
applies the filter composition per file, transforms each file and writes
the same block format to a truncated destination; the walk of the manifest
exporter supplies the matched file list. -/

def combine_source_files_output (previous : Str) (fs : Str → ReadResult)
    (commentTokenOf : Str → Str) (transform : List Str → Str → List Str)
    (sourceDir : Str) (crit : Criteria) (fuel : Nat) (ts : List FSEntry) : Str :=
  openTruncate previous ++ combineIntro commentTokenOf crit.extensions ++
    ((combineBlocks fs transform sourceDir crit.extensions
        (((walkE crit fuel [] [] (sortByName ts)).filter
            (fun e => e.isFile)).map (fun e => e.relPath))).map
      (renderBlock commentTokenOf)).flatten

/-! String-level helper lemmas used for the manifest round-trip claims. -/

/-! Well-formedness of filesystem names, aligned with the recursion of the
walk.  Real file names are non-empty, contain no slash and no newline, and
carry no leading or trailing whitespace; these are the assumptions under
which the manifest text round-trips. -/

/-- A string that strips to itself and contains no newline. -/

def strOkB (p : Str) : Bool :=
  decide (lstrip p = p) && decide (rstrip p = p) && decide ('\n' ∉ p)

/-- A well-formed file or directory name. -/

def goodNameB (n : Str) : Bool :=
  !n.isEmpty && strOkB n && decide ('/' ∉ n)

/-- The box-drawing prefix built by the walk only ever contains blanks and
vertical bars. -/

def preOkB (pre : Str) : Bool := pre.all (fun c => c = ' ' || c = '│')

/-- Well-formedness of a tree, shaped exactly like the recursion of walkE
so that induction on fuel aligns both. -/

def wfW : Nat → List FSEntry → Bool
  | 0, _ => true
  | _ + 1, [] => true
  | fuel + 1, t :: ts =>
      (match t with
       | .file n => goodNameB n
       | .dir n cs => goodNameB n && wfW fuel (sortByName cs)) && wfW fuel ts

/-- What a well-formed manifest body line looks like: a blank-and-bar
prefix, a connector, and a stripped non-empty relative path. -/

def emitOk (e : Emitted) : Prop :=
  (∃ pre b, preOkB pre = true ∧ e.display = pre ++ connector b) ∧
  strOkB e.relPath = true ∧ e.relPath ≠ []

/-- Concrete tree used for the round-trip counterexample: a subdirectory
with a matching file, a matching top-level file, and a non-matching
top-level file (notes.txt), so the tree has at least one matching and one
non-matching file as the round-trip claim requires. -/

def c3Tree : List FSEntry :=
  [FSEntry.dir (chars "sub") [FSEntry.file (chars "a.py")],
   FSEntry.file (chars "top.py"),
   FSEntry.file (chars "notes.txt")]

/-- Concrete selection criteria for the round-trip counterexamples. -/

def c3Crit : Criteria := ⟨[chars ".py"], [], [], []⟩

/-- Concrete tree for the directory-entries counterexample. -/

def c4Tree : List FSEntry :=
  [FSEntry.dir (chars "docs") [FSEntry.file (chars "guide.py")]]

/-! Pruning of ignored directories (C10). -/

/-- The last path component: everything after the last slash. -/

def lastComp (p : Str) : Str :=
  (p.reverse.takeWhile (fun c => c ≠ '/')).reverse

/-- Concrete configuration for the pruning witness: node_modules is an
ignored path. -/

def c10Crit : Criteria :=
  ⟨[chars ".py"], [], [chars "node_modules"], []⟩

/-- Concrete tree for the pruning witness. -/

def c10Tree : List FSEntry :=
  [FSEntry.dir (chars "node_modules") [FSEntry.file (chars "dep.py")],
   FSEntry.file (chars "app.py")]

/-! Tolerant header parsing (C9). -/

/-- An event passing the filters at least half a second after the last
dispatch is dispatched and moves the debounce timestamp. -/
theorem dispatch_of_accepted (cfg : WatchConfig) (st : WatchState) (ev : FSEvent)
    (h1 : filtersPass cfg ev = true) (h2 : debounceMs ≤ ev.time - st.last_run) :
    on_any_event cfg st ev =
      (⟨ev.time, some (eventRel cfg ev)⟩, some (eventRel cfg ev)) := by
  unfold on_any_event
  rw [h1, if_neg (by simp), if_neg (not_lt.mpr h2)]

/-- An event arriving within the debounce window is dropped without any
state change, whatever the filters say. -/
theorem drop_of_debounced (cfg : WatchConfig) (st : WatchState) (ev : FSEvent)
    (h2 : ev.time - st.last_run < debounceMs) :
    on_any_event cfg st ev = (st, none) := by
  unfold on_any_event
  by_cases hf : filtersPass cfg ev
  · rw [hf, if_neg (by simp), if_pos h2]
  · rw [Bool.not_eq_true] at hf
    rw [hf, if_pos (by simp)]

/-- C1 counterexample: the claim demands zero callback invocations for an
event whose path resolves to the configured output file, but the handler
has no output-file check at all (neither WatchConfig nor the source
handler ever receives the output path), so the event for
watched/bundle.py passes the extension, ignore and include filters and
the debounce check and dispatches one callback. -/
theorem watcher_output_event_dispatches :
    (on_any_event c1Cfg ⟨0, none⟩ c1Ev).2 = some (chars "bundle.py") := by
  decide

/-- C1 (amended): the handler performs no output-file comparison; every
event that passes the extension, ignore, include and tree-membership
filters and arrives at least the debounce window after the previous
dispatch triggers exactly one callback with its relative path, regardless
of which file the path denotes, including the configured output file. -/
theorem on_any_event_no_output_check (cfg : WatchConfig) (st : WatchState)
    (ev : FSEvent) (h1 : filtersPass cfg ev = true)
    (h2 : debounceMs ≤ ev.time - st.last_run) :
    (on_any_event cfg st ev).2 = some (eventRel cfg ev) := by
  rw [dispatch_of_accepted cfg st ev h1 h2]

/-- C1 witness: the amended theorem applied to the output-file event shows
the callback firing on the configured output file itself. -/
theorem on_any_event_no_output_check_witness :
    filtersPass c1Cfg c1Ev = true ∧ debounceMs ≤ c1Ev.time - (0 : Int) ∧
    (on_any_event c1Cfg ⟨0, none⟩ c1Ev).2 = some (eventRel c1Cfg c1Ev) :=
  ⟨by decide, by decide,
   on_any_event_no_output_check c1Cfg ⟨0, none⟩ c1Ev (by decide) (by decide)⟩

/-- C5: debounce is leading-edge suppression: three events accepted by the
filters within less than the 500 ms window dispatch exactly one rebuild
callback, for the first event only; the later events are dropped, not
queued or merged. -/
theorem debounce_leading_edge (cfg : WatchConfig) (st : WatchState)
    (e1 e2 e3 : FSEvent)
    (hf1 : filtersPass cfg e1 = true) (hf2 : filtersPass cfg e2 = true)
    (hf3 : filtersPass cfg e3 = true)
    (h12 : e1.time ≤ e2.time) (h23 : e2.time ≤ e3.time)
    (hwin : e3.time - e1.time < debounceMs)
    (hfree : debounceMs ≤ e1.time - st.last_run) :
    (processEvents cfg st [e1, e2, e3]).2 = [eventRel cfg e1] := by
  have s1 := dispatch_of_accepted cfg st e1 hf1 hfree
  have s2 : on_any_event cfg ⟨e1.time, some (eventRel cfg e1)⟩ e2 =
      (⟨e1.time, some (eventRel cfg e1)⟩, none) :=
    drop_of_debounced _ _ _ (by simp only; omega)
  have s3 : on_any_event cfg ⟨e1.time, some (eventRel cfg e1)⟩ e3 =
      (⟨e1.time, some (eventRel cfg e1)⟩, none) :=
    drop_of_debounced _ _ _ (by simp only; omega)
  simp [processEvents, s1, s2, s3]

/-- C5 witness: three accepted events for the same file at times 1000 ms,
1100 ms and 1200 ms (a 200 ms burst against the 500 ms window) from an
idle handler dispatch exactly the first event's relative path. -/
theorem debounce_leading_edge_witness :
    (processEvents c1Cfg ⟨0, none⟩
      [⟨chars "watched/x.py", false, 1000⟩,
       ⟨chars "watched/x.py", false, 1100⟩,
       ⟨chars "watched/x.py", false, 1200⟩]).2
      = [eventRel c1Cfg ⟨chars "watched/x.py", false, 1000⟩] :=
  debounce_leading_edge c1Cfg ⟨0, none⟩ _ _ _
    (by decide) (by decide) (by decide)
    (by decide) (by decide) (by decide) (by decide)

/-- C2 counterexample: on the line with two marker occurrences the parser
keeps the text after the FIRST occurrence, not the last (a──b instead of
b), and on a line whose text after the marker is empty it still appends
the empty entry instead of dropping it. -/
theorem parse_entry_not_last_marker :
    (parse_tree_file [chars "├── a──b"]).included_paths = [chars "a──b"] ∧
    chars "a──b" ≠ chars "b" ∧
    (parse_tree_file [chars "x ──"]).included_paths = [([] : Str)] := by
  decide

/-- C2 (amended): for every non-blank non-header line containing the
path-separator marker, parse appends as the entry the trimmed substring
after the FIRST occurrence of the marker, unconditionally (also when that
substring is empty). -/
theorem parse_entry_after_first_marker (L : List Str) (l : Str)
    (h1 : pyStrip l ≠ []) (h2 : startsList (chars "#") (pyStrip l) = false)
    (h3 : containsSub (pyStrip l) sepMark = true) :
    (parse_tree_file (L ++ [l])).included_paths
      = (parse_tree_file L).included_paths
        ++ [pyStrip (splitOnceRest sepMark (pyStrip l))] := by
  unfold parse_tree_file
  rw [List.foldl_append]
  simp only [List.foldl_cons, List.foldl_nil]
  simp [parseTreeLine, List.isEmpty_iff, h1, h2, h3]

/-- C2 witness: the amended rule applied to a single ordinary tree line. -/
theorem parse_entry_after_first_marker_witness :
    (parse_tree_file [chars "├── x.py"]).included_paths
      = (parse_tree_file []).included_paths
        ++ [pyStrip (splitOnceRest sepMark (pyStrip (chars "├── x.py")))] :=
  parse_entry_after_first_marker [] (chars "├── x.py")
    (by decide) (by decide) (by decide)

/-- The paths of the written blocks are exactly the entries accepted by
the extension re-check plus readability, in manifest order. -/
theorem combineBlocks_fst (fs : Str → ReadResult)
    (transform : List Str → Str → List Str) (sourceDir : Str)
    (extensions : List Str) :
    ∀ filelist : List Str,
      (combineBlocks fs transform sourceDir extensions filelist).map Prod.fst
        = filelist.filter (acceptedEntry fs sourceDir extensions) := by
  intro filelist
  induction filelist with
  | nil => rfl
  | cons rel rest ih =>
      by_cases h : has_matching_extension rel extensions
      · cases hfs : fs (pathJoin sourceDir rel) <;>
          simp [combineBlocks, acceptedEntry, h, hfs, ih, ReadResult.isOk,
            List.filter_cons]
      · rw [Bool.not_eq_true] at h
        simp [combineBlocks, acceptedEntry, h, ih, List.filter_cons]

/-- C6: combine_from_filelist re-checks only the extension filter, skips
each entry whose resolved path is missing, unreadable or not decodable and
continues with the rest, and the returned count equals exactly the number
of blocks actually written, which are the accepted entries in order. -/
theorem combine_skips_and_counts (fs : Str → ReadResult)
    (transform : List Str → Str → List Str) (sourceDir : Str)
    (extensions : List Str) (filelist : List Str) :
    (combineBlocks fs transform sourceDir extensions filelist).map Prod.fst
        = filelist.filter (acceptedEntry fs sourceDir extensions)
    ∧ combine_from_filelist_count fs transform sourceDir extensions filelist
        = (filelist.filter (acceptedEntry fs sourceDir extensions)).length
    ∧ ∀ rel, acceptedEntry fs sourceDir extensions rel = false →
        ¬ rel ∈ (combineBlocks fs transform sourceDir extensions filelist).map
            Prod.fst := by
  refine ⟨combineBlocks_fst fs transform sourceDir extensions filelist, ?_, ?_⟩
  · have h := combineBlocks_fst fs transform sourceDir extensions filelist
    calc combine_from_filelist_count fs transform sourceDir extensions filelist
        = ((combineBlocks fs transform sourceDir extensions filelist).map
            Prod.fst).length := by
          simp [combine_from_filelist_count]
      _ = (filelist.filter (acceptedEntry fs sourceDir extensions)).length := by
          rw [h]
  · intro rel hrel hmem
    rw [combineBlocks_fst] at hmem
    have := (List.mem_filter.mp hmem).2
    rw [hrel] at this
    exact Bool.false_ne_true this

/-- C6 witness: a three-entry manifest over a small filesystem in which
one entry is missing and one fails to decode writes one block and counts
one; the missing entry is reported absent from the written blocks. -/
theorem combine_skips_and_counts_witness :
    (combineBlocks c6Fs (fun ls _ => ls) (chars "root") [chars ".py"]
        [chars "gone.py", chars "bad.py", chars "ok.py"]).map Prod.fst
      = [chars "gone.py", chars "bad.py", chars "ok.py"].filter
          (acceptedEntry c6Fs (chars "root") [chars ".py"])
    ∧ ¬ chars "gone.py" ∈ (combineBlocks c6Fs (fun ls _ => ls) (chars "root")
        [chars ".py"] [chars "gone.py", chars "bad.py", chars "ok.py"]).map
          Prod.fst :=
  ⟨(combine_skips_and_counts c6Fs (fun ls _ => ls) (chars "root") [chars ".py"]
      [chars "gone.py", chars "bad.py", chars "ok.py"]).1,
   (combine_skips_and_counts c6Fs (fun ls _ => ls) (chars "root") [chars ".py"]
      [chars "gone.py", chars "bad.py", chars "ok.py"]).2.2
      (chars "gone.py") (by decide)⟩

/-- C7 counterexample: the listed extension .tar.gz is an exact
case-insensitive suffix of archive.tar.gz, yet has_matching_extension
rejects the file, because the comparison uses the splitext extension
(everything from the last dot, here .gz), not an arbitrary suffix. -/
theorem extension_not_suffix_match :
    has_matching_extension (chars "archive.tar.gz") [chars ".tar.gz"] = false
    ∧ chars "archive.tar.gz" = chars "archive" ++ chars ".tar.gz"
    ∧ (splitext (chars "archive.tar.gz")).2 = chars ".gz" := by
  decide

/-- C7 (amended): with an empty extension list every filename matches;
with a non-empty list a filename matches exactly when its splitext
extension, the substring from the last dot of the basename (empty when
the basename is dotless or has only leading dots), case-insensitively
equals one of the listed extensions.  A listed extension spanning more
than the part after the last dot, such as .tar.gz, therefore never
matches. -/
theorem extension_match_by_splitext :
    (∀ f : Str, has_matching_extension f [] = true)
    ∧ ∀ (f : Str) (E : List Str), E ≠ [] →
        (has_matching_extension f E = true ↔
          ∃ e ∈ E, lowerStr (splitext f).2 = lowerStr e) := by
  constructor
  · intro f
    simp [has_matching_extension]
  · intro f E hE
    cases E with
    | nil => exact absurd rfl hE
    | cons e es =>
        simp [has_matching_extension, List.any_eq_true]

/-- C7 witness: the amended rule applied to the empty extension list on a
dotless name and to the list with .PY on lowercase a.py. -/
theorem extension_match_by_splitext_witness :
    has_matching_extension (chars "Makefile") [] = true
    ∧ (has_matching_extension (chars "a.py") [chars ".PY"] = true ↔
        ∃ e ∈ [chars ".PY"],
          lowerStr (splitext (chars "a.py")).2 = lowerStr e) :=
  ⟨extension_match_by_splitext.1 (chars "Makefile"),
   extension_match_by_splitext.2 (chars "a.py") [chars ".PY"] (by decide)⟩

/-- C8: combining is idempotent and replacing.  The destination is opened
in truncate-write mode, so the produced bytes do not depend on the
previous content of the output file; rerunning combine_from_filelist (or
the spec-modelled combine_source_files) with identical inputs over an
unchanged source tree reproduces the identical output; and the output
file's parent directory is present after the run, with re-creation
changing nothing. -/
theorem combine_idempotent_replacing (previous previous2 : Str)
    (fs : Str → ReadResult) (commentTokenOf : Str → Str)
    (transform : List Str → Str → List Str) (sourceDir : Str)
    (extensions : List Str) (filelist : List Str) (crit : Criteria)
    (fuel : Nat) (ts : List FSEntry) (dirs : List Str) (outputFile : Str) :
    combine_from_filelist_output previous fs commentTokenOf transform
        sourceDir extensions filelist
      = combine_from_filelist_output previous2 fs commentTokenOf transform
          sourceDir extensions filelist
    ∧ combine_from_filelist_output
        (combine_from_filelist_output previous fs commentTokenOf transform
          sourceDir extensions filelist)
        fs commentTokenOf transform sourceDir extensions filelist
      = combine_from_filelist_output previous fs commentTokenOf transform
          sourceDir extensions filelist
    ∧ combine_source_files_output
        (combine_source_files_output previous fs commentTokenOf transform
          sourceDir crit fuel ts)
        fs commentTokenOf transform sourceDir crit fuel ts
      = combine_source_files_output previous fs commentTokenOf transform
          sourceDir crit fuel ts
    ∧ dirName outputFile ∈ ensureParentDir dirs outputFile
    ∧ ensureParentDir (ensureParentDir dirs outputFile) outputFile
      = ensureParentDir dirs outputFile := by
  refine ⟨rfl, rfl, rfl, ?_, ?_⟩
  · unfold ensureParentDir
    by_cases h : dirName outputFile ∈ dirs
    · rw [if_pos h]; exact h
    · rw [if_neg h]; exact List.mem_append_right dirs (List.mem_singleton.mpr rfl)
  · unfold ensureParentDir
    by_cases h : dirName outputFile ∈ dirs
    · rw [if_pos h, if_pos h]
    · rw [if_neg h, if_pos (List.mem_append_right dirs (List.mem_singleton.mpr rfl))]

/-- startsList holds exactly when the second list extends the first. -/
theorem startsList_iff (p : Str) : ∀ l : Str,
    startsList p l = true ↔ ∃ t, l = p ++ t := by
  induction p with
  | nil => intro l; simp [startsList]
  | cons c cs ih =>
      intro l
      cases l with
      | nil =>
          simp only [startsList, List.cons_append]
          constructor
          · intro h; cases h
          · rintro ⟨t, ht⟩; cases ht
      | cons d ds =>
          simp only [startsList, Bool.and_eq_true, decide_eq_true_eq, ih,
            List.cons_append]
          constructor
          · rintro ⟨rfl, t, rfl⟩; exact ⟨t, rfl⟩
          · rintro ⟨t, ht⟩
            injection ht with h1 h2
            exact ⟨h1.symm, t, h2⟩

/-- A non-empty pattern never leads the empty string. -/
theorem startsList_nil_of_ne (p : Str) (hp : p ≠ []) :
    startsList p [] = false := by
  cases p with
  | nil => exact absurd rfl hp
  | cons c cs => rfl

/-- The head of a dropWhile result fails the predicate. -/
theorem dropWhile_head_false (p : Char → Bool) :
    ∀ (l : Str) (c : Char) (cs : Str),
      List.dropWhile p l = c :: cs → p c = false := by
  intro l
  induction l with
  | nil => intro c cs h; cases h
  | cons d ds ih =>
      intro c cs h
      by_cases hd : p d
      · rw [List.dropWhile_cons_of_pos hd] at h
        exact ih c cs h
      · rw [List.dropWhile_cons_of_neg hd] at h
        injection h with h1 _
        rw [← h1]
        exact Bool.not_eq_true _ |>.mp hd

/-- lstrip keeps a string whose first character is not whitespace. -/
theorem lstrip_cons (c : Char) (r : Str) (hc : c.isWhitespace = false) :
    lstrip (c :: r) = c :: r :=
  List.dropWhile_cons_of_neg (by simp [hc])

/-- A string fixed by lstrip and non-empty has a non-whitespace head, so
appending anything on the right leaves lstrip trivial. -/
theorem lstrip_append_of_stable (x y : Str) (hx : lstrip x = x) (hne : x ≠ []) :
    lstrip (x ++ y) = x ++ y := by
  cases x with
  | nil => exact absurd rfl hne
  | cons c cs =>
      have hc : c.isWhitespace = false :=
        dropWhile_head_false Char.isWhitespace (c :: cs) c cs hx
      simpa using lstrip_cons c (cs ++ y) hc

/-- rstrip keeps a string whose last part is a non-whitespace-ending,
non-empty, rstrip-stable block. -/
theorem rstrip_append_of_stable (x y : Str) (hy : rstrip y = y) (hne : y ≠ []) :
    rstrip (x ++ y) = x ++ y := by
  have hyr : y.reverse.dropWhile Char.isWhitespace = y.reverse := by
    have := congrArg List.reverse hy
    simpa [rstrip] using this
  have hner : y.reverse ≠ [] := by simpa using hne
  unfold rstrip
  rw [List.reverse_append, List.dropWhile_append]
  rw [hyr]
  rw [if_neg (by simpa [List.isEmpty_iff] using hner)]
  simp

/-- rstrip commutes with a non-whitespace head. -/
theorem rstrip_cons (c : Char) (r : Str) (hc : c.isWhitespace = false) :
    rstrip (c :: r) = c :: rstrip r := by
  unfold rstrip
  have : (c :: r).reverse = r.reverse ++ [c] := by simp
  rw [this, List.dropWhile_append]
  have hone : List.dropWhile Char.isWhitespace [c] = [c] :=
    List.dropWhile_cons_of_neg (by simp [hc])
  by_cases h : (List.dropWhile Char.isWhitespace r.reverse).isEmpty = true
  · rw [if_pos h]
    rw [List.isEmpty_iff] at h
    simp [h, hone]
  · rw [if_neg h]
    simp

/-- pyStrip of a string with non-whitespace head keeps that head. -/
theorem pyStrip_cons (c : Char) (r : Str) (hc : c.isWhitespace = false) :
    pyStrip (c :: r) = c :: rstrip r := by
  unfold pyStrip
  rw [lstrip_cons c r hc, rstrip_cons c r hc]

/-- pyStrip fixes a string that lstrip and rstrip both fix. -/
theorem pyStrip_of_stable (x : Str) (h1 : lstrip x = x) (h2 : rstrip x = x) :
    pyStrip x = x := by
  unfold pyStrip
  rw [h1, h2]

/-- Substring containment follows from a match at the very front. -/
theorem containsSub_of_starts (l s : Str) (h : startsList s l = true) :
    containsSub l s = true := by
  unfold containsSub
  rw [if_pos h]

/-- Substring containment is stable under extending on the left. -/
theorem containsSub_append_left (s : Str) :
    ∀ x l, containsSub l s = true → containsSub (x ++ l) s = true := by
  intro x
  induction x with
  | nil => intro l h; simpa using h
  | cons c cs ih =>
      intro l h
      rw [List.cons_append]
      unfold containsSub
      by_cases hs : startsList s (c :: (cs ++ l)) = true
      · rw [if_pos hs]
      · rw [if_neg hs]
        exact ih l h

/-- Scanning for the marker passes over characters that cannot start it. -/
theorem dropThroughFirst_pass (s : Str) (d : Char) (hd : s = d :: s.tail) :
    ∀ x y, (∀ c ∈ x, c ≠ d) → dropThroughFirst s (x ++ y) = dropThroughFirst s y := by
  intro x
  induction x with
  | nil => intro y _; simp
  | cons c cs ih =>
      intro y hx
      have hcd : c ≠ d := hx c (List.mem_cons_self c cs)
      have hfalse : startsList s (c :: (cs ++ y)) = false := by
        rw [hd]
        simp only [startsList, Bool.and_eq_false_iff]
        left
        simpa using fun h => hcd h.symm
      rw [List.cons_append]
      have hstep : dropThroughFirst s (c :: (cs ++ y))
          = dropThroughFirst s (cs ++ y) := by
        show (if startsList s (c :: (cs ++ y)) = true
              then (c :: (cs ++ y)).drop s.length
              else dropThroughFirst s (cs ++ y)) = dropThroughFirst s (cs ++ y)
        rw [hfalse]
        simp
      rw [hstep]
      exact ih y (fun e he => hx e (List.mem_cons_of_mem c he))

/-- Splitting at newlines takes off a leading newline-free line. -/
theorem splitLines_append_line (l : Str) (r : Str) (h : '\n' ∉ l) :
    splitLines (l ++ '\n' :: r) = l :: splitLines r := by
  induction l with
  | nil => simp [splitLines]
  | cons c cs ih =>
      have hc : ¬(c = '\n') := fun hh => h (hh ▸ List.mem_cons_self c cs)
      have ihr := ih (fun hm => h (List.mem_cons_of_mem c hm))
      simp only [List.cons_append, splitLines, if_neg hc, List.append_eq, ihr]

/-- A newline-free string splits into itself as a single line. -/
theorem splitLines_no_nl (l : Str) (h : '\n' ∉ l) : splitLines l = [l] := by
  induction l with
  | nil => rfl
  | cons c cs ih =>
      have hc : ¬(c = '\n') := fun hh => h (hh ▸ List.mem_cons_self c cs)
      have ihr := ih (fun hm => h (List.mem_cons_of_mem c hm))
      simp only [splitLines, if_neg hc, List.append_eq, ihr]

/-- Splitting a block of newline-terminated lines followed by a rest. -/
theorem splitLines_header_block (hl : List Str) (r : Str)
    (h : ∀ l ∈ hl, '\n' ∉ l) :
    splitLines ((hl.map (fun l => l ++ ['\n'])).flatten ++ r)
      = hl ++ splitLines r := by
  induction hl with
  | nil => simp
  | cons a as ih =>
      have ha : '\n' ∉ a := h a (List.mem_cons_self a as)
      have step := splitLines_append_line a ((as.map (fun l => l ++ ['\n'])).flatten ++ r) ha
      simp only [List.map_cons, List.flatten_cons, List.append_assoc,
        List.cons_append, List.nil_append] at step ⊢
      rw [step, ih (fun l hl' => h l (List.mem_cons_of_mem a hl'))]

/-- Splitting a nonempty newline join of newline-free lines recovers them. -/
theorem splitLines_joinNL (ls : List Str) (h : ∀ l ∈ ls, '\n' ∉ l)
    (hne : ls ≠ []) : splitLines (joinNL ls) = ls := by
  induction ls with
  | nil => exact absurd rfl hne
  | cons l ls' ih =>
      cases ls' with
      | nil => exact splitLines_no_nl l (h l (List.mem_cons_self l []))
      | cons l2 rest =>
          have step := splitLines_append_line l (joinNL (l2 :: rest))
            (h l (List.mem_cons_self l (l2 :: rest)))
          simp only [joinNL]
          rw [step, ih (fun x hx => h x (List.mem_cons_of_mem l hx)) (by simp)]

/-- Unpacking strOkB. -/
theorem strOkB_spec (p : Str) :
    strOkB p = true ↔ lstrip p = p ∧ rstrip p = p ∧ '\n' ∉ p := by
  simp [strOkB, Bool.and_eq_true, and_assoc]

/-- Unpacking goodNameB. -/
theorem goodNameB_spec (n : Str) :
    goodNameB n = true ↔
      n ≠ [] ∧ (lstrip n = n ∧ rstrip n = n ∧ '\n' ∉ n) ∧ '/' ∉ n := by
  simp [goodNameB, strOkB, Bool.and_eq_true, List.isEmpty_iff, and_assoc]

/-- Joining a well-formed name below a well-formed relative directory
yields a well-formed non-empty relative path. -/
theorem relJoin_ok (rdir n : Str) (h1 : strOkB rdir = true)
    (h2 : goodNameB n = true) :
    strOkB (relJoin rdir n) = true ∧ relJoin rdir n ≠ [] := by
  obtain ⟨hnne, ⟨hnl, hnr, hnn⟩, _⟩ := (goodNameB_spec n).mp h2
  obtain ⟨hrl, hrr, hrn⟩ := (strOkB_spec rdir).mp h1
  unfold relJoin
  by_cases he : rdir.isEmpty = true
  · rw [if_pos he]
    exact ⟨(strOkB_spec n).mpr ⟨hnl, hnr, hnn⟩, hnne⟩
  · rw [if_neg he]
    rw [List.isEmpty_iff] at he
    constructor
    · refine (strOkB_spec _).mpr ⟨?_, ?_, ?_⟩
      · exact lstrip_append_of_stable rdir ('/' :: n) hrl he
      · have : rdir ++ '/' :: n = (rdir ++ ['/']) ++ n := by simp
        rw [this]
        exact rstrip_append_of_stable (rdir ++ ['/']) n hnr hnne
      · intro hmem
        rcases List.mem_append.mp hmem with hm | hm
        · exact hrn hm
        · rcases List.mem_cons.mp hm with hm' | hm'
          · cases hm'
          · exact hnn hm'
    · intro hnil
      have := List.append_eq_nil.mp hnil
      cases this.2

/-- Extending the prefix with an indentation block preserves its shape. -/
theorem preOkB_indent (pre : Str) (b : Bool) (h : preOkB pre = true) :
    preOkB (pre ++ indentBlock b) = true := by
  cases b <;> simp_all [preOkB, indentBlock, List.all_append, chars]

/-- Every record emitted by the walk from well-formed inputs is
well-formed in the sense of emitOk. -/
theorem walkE_emit_ok (crit : Criteria) :
    ∀ (fuel : Nat) (rdir pre : Str) (ts : List FSEntry),
      wfW fuel ts = true → strOkB rdir = true → preOkB pre = true →
      ∀ e ∈ walkE crit fuel rdir pre ts, emitOk e := by
  intro fuel
  induction fuel with
  | zero =>
      intro rdir pre ts _ _ _ e he
      simp [walkE] at he
  | succ fuel ih =>
      intro rdir pre ts hwf hrd hpre e he
      cases ts with
      | nil => simp [walkE] at he
      | cons t ts' =>
          cases t with
          | file n =>
              simp only [wfW, Bool.and_eq_true] at hwf
              obtain ⟨hgn, hwts⟩ := hwf
              simp only [walkE] at he
              rcases List.mem_append.mp he with h1 | h2
              · by_cases hc : (has_matching_extension n crit.extensions &&
                    !should_ignore n (relJoin rdir n) crit.ignoreNames
                      crit.ignorePaths &&
                    should_include n crit.includeNames) = true
                · rw [if_pos hc] at h1
                  rcases List.mem_singleton.mp h1 with rfl
                  refine ⟨⟨pre, ts'.isEmpty, hpre, rfl⟩, ?_, ?_⟩
                  · exact (relJoin_ok rdir n hrd hgn).1
                  · exact (relJoin_ok rdir n hrd hgn).2
                · rw [if_neg hc] at h1
                  cases h1
              · exact ih rdir pre ts' hwts hrd hpre e h2
          | dir n cs =>
              simp only [wfW, Bool.and_eq_true] at hwf
              obtain ⟨⟨hgn, hwcs⟩, hwts⟩ := hwf
              simp only [walkE] at he
              rcases List.mem_append.mp he with h1 | h2
              · by_cases hig : (!should_ignore n (relJoin rdir n)
                    crit.ignoreNames crit.ignorePaths) = true
                · rw [if_pos hig] at h1
                  rcases List.mem_cons.mp h1 with rfl | h1'
                  · exact ⟨⟨pre, ts'.isEmpty, hpre, rfl⟩,
                      (relJoin_ok rdir n hrd hgn).1,
                      (relJoin_ok rdir n hrd hgn).2⟩
                  · exact ih (relJoin rdir n) (pre ++ indentBlock ts'.isEmpty)
                      (sortByName cs) hwcs (relJoin_ok rdir n hrd hgn).1
                      (preOkB_indent pre ts'.isEmpty hpre) e h1'
                · rw [if_neg hig] at h1
                  cases h1
              · exact ih rdir pre ts' hwts hrd hpre e h2

/-- lstrip distributes over an append whose right part is lstrip-stable. -/
theorem lstrip_pre_append (pre x : Str) (hx : lstrip x = x) :
    lstrip (pre ++ x) = lstrip pre ++ x := by
  unfold lstrip at *
  rw [List.dropWhile_append]
  by_cases hp : (List.dropWhile Char.isWhitespace pre).isEmpty = true
  · rw [if_pos hp, hx]
    rw [List.isEmpty_iff] at hp
    rw [hp, List.nil_append]
  · rw [if_neg hp]

/-- Stripping a space off the front of a stripped string. -/
theorem pyStrip_space (rel : Str) (h1 : lstrip rel = rel)
    (h2 : rstrip rel = rel) : pyStrip (' ' :: rel) = rel := by
  unfold pyStrip
  rw [show lstrip (' ' :: rel) = lstrip rel from
      List.dropWhile_cons_of_pos (by decide), h1, h2]

/-- A connector followed by anything is lstrip-stable. -/
theorem lstrip_connector (b : Bool) (rel : Str) :
    lstrip (connector b ++ rel) = connector b ++ rel := by
  cases b
  · exact lstrip_cons '├' _ (by decide)
  · exact lstrip_cons '└' _ (by decide)

/-- Parsing one body line produced by the walk appends exactly its
relative path to the included paths and changes nothing else. -/
theorem parse_body_line (acc : TreeParse) (pre rel : Str) (b : Bool)
    (hpre : preOkB pre = true) (hrel : strOkB rel = true) (hne : rel ≠ []) :
    parseTreeLine acc (pre ++ connector b ++ rel)
      = { acc with included_paths := acc.included_paths ++ [rel] } := by
  obtain ⟨hl, hr, _⟩ := (strOkB_spec rel).mp hrel
  have hLPsub : ∀ c ∈ lstrip pre, c = ' ' ∨ c = '│' := by
    intro c hc
    have hmem : c ∈ pre := List.Sublist.mem hc (List.dropWhile_sublist _)
    have := List.all_eq_true.mp hpre c hmem
    simpa using this
  have hstrip : pyStrip (pre ++ connector b ++ rel)
      = (lstrip pre ++ connector b) ++ rel := by
    unfold pyStrip
    rw [List.append_assoc,
        lstrip_pre_append pre (connector b ++ rel) (lstrip_connector b rel),
        ← List.append_assoc]
    exact rstrip_append_of_stable _ rel hr hne
  have hne' : ((lstrip pre ++ connector b) ++ rel).isEmpty = false := by
    cases b <;> simp [connector, chars, List.isEmpty_iff]
  have hhash : startsList (chars "#") ((lstrip pre ++ connector b) ++ rel)
      = false := by
    rw [List.append_assoc]
    cases hLP : lstrip pre with
    | nil =>
        rw [List.nil_append]
        cases b <;> rfl
    | cons c cs =>
        have hcw : c.isWhitespace = false :=
          dropWhile_head_false Char.isWhitespace pre c cs hLP
        have hcor : c = ' ' ∨ c = '│' :=
          hLPsub c (hLP ▸ List.mem_cons_self c cs)
        have hc : c = '│' := by
          rcases hcor with h | h
          · rw [h] at hcw; exact absurd hcw (by decide)
          · exact h
        subst hc
        rfl
  have hmark : containsSub ((lstrip pre ++ connector b) ++ rel) sepMark
      = true := by
    rw [List.append_assoc]
    apply containsSub_append_left
    cases b <;> rfl
  have hval : pyStrip (splitOnceRest sepMark
      ((lstrip pre ++ connector b) ++ rel)) = rel := by
    unfold splitOnceRest
    rw [if_pos hmark]
    have hdrop : dropThroughFirst sepMark ((lstrip pre ++ connector b) ++ rel)
        = ' ' :: rel := by
      cases b
      · have hshape : (lstrip pre ++ connector false) ++ rel
            = (lstrip pre ++ ['├']) ++ ('─' :: '─' :: ' ' :: rel) := by
          simp [connector, chars]
        rw [hshape, dropThroughFirst_pass sepMark '─' rfl (lstrip pre ++ ['├'])
            ('─' :: '─' :: ' ' :: rel) ?_]
        · rfl
        · intro c hc
          rcases List.mem_append.mp hc with hm | hm
          · rcases hLPsub c hm with rfl | rfl <;> decide
          · rcases List.mem_singleton.mp hm with rfl; decide
      · have hshape : (lstrip pre ++ connector true) ++ rel
            = (lstrip pre ++ ['└']) ++ ('─' :: '─' :: ' ' :: rel) := by
          simp [connector, chars]
        rw [hshape, dropThroughFirst_pass sepMark '─' rfl (lstrip pre ++ ['└'])
            ('─' :: '─' :: ' ' :: rel) ?_]
        · rfl
        · intro c hc
          rcases List.mem_append.mp hc with hm | hm
          · rcases hLPsub c hm with rfl | rfl <;> decide
          · rcases List.mem_singleton.mp hm with rfl; decide
    rw [hdrop]
    exact pyStrip_space rel hl hr
  simp only [parseTreeLine, hstrip, hne', hhash, hmark, hval]
  simp

/-- A blank or hash-starting line never touches the included paths. -/
theorem parseTreeLine_keeps_included (acc : TreeParse) (l : Str)
    (h : pyStrip l = [] ∨ startsList (chars "#") (pyStrip l) = true) :
    (parseTreeLine acc l).included_paths = acc.included_paths := by
  by_cases he : (pyStrip l).isEmpty = true
  · simp [parseTreeLine, he]
  · rcases h with h | h
    · rw [List.isEmpty_iff] at he; exact absurd h he
    · simp only [parseTreeLine]
      rw [if_neg he, if_pos h]
      simp [apply_ite (fun t : TreeParse => t.included_paths)]

/-- A projection untouched by every line of a list is untouched by the
whole fold. -/
theorem foldl_proj_const {α : Type} (f : TreeParse → α) (L : List Str)
    (h : ∀ l ∈ L, ∀ acc, f (parseTreeLine acc l) = f acc) :
    ∀ acc, f (L.foldl parseTreeLine acc) = f acc := by
  induction L with
  | nil => intro acc; rfl
  | cons l ls ih =>
      intro acc
      rw [List.foldl_cons, ih (fun x hx => h x (List.mem_cons_of_mem l hx)),
          h l (List.mem_cons_self l ls)]

/-- Folding the parser over the body lines of well-formed emitted records
appends exactly their relative paths. -/
theorem foldl_body (es : List Emitted) (h : ∀ e ∈ es, emitOk e) :
    ∀ acc : TreeParse,
      List.foldl parseTreeLine acc (es.map (fun e => e.display ++ e.relPath))
        = { acc with included_paths :=
              acc.included_paths ++ es.map (fun e => e.relPath) } := by
  induction es with
  | nil => intro acc; simp
  | cons e es ih =>
      intro acc
      obtain ⟨⟨pre, b, hpre, hdisp⟩, hrel, hne⟩ := h e (List.mem_cons_self e es)
      rw [List.map_cons, List.foldl_cons, hdisp, List.append_assoc,
          ← List.append_assoc, parse_body_line acc pre e.relPath b hpre hrel hne,
          ih (fun x hx => h x (List.mem_cons_of_mem e hx))]
      simp

/-- The comma join of newline-free pieces is newline-free. -/
theorem commaJoin_no_nl : ∀ E : List Str, (∀ e ∈ E, '\n' ∉ e) →
    '\n' ∉ genHeaderLines.commaJoin E := by
  intro E
  induction E with
  | nil => intro _ h; cases h
  | cons e es ih =>
      intro h hmem
      cases es with
      | nil => exact h e (List.mem_cons_self e []) (by simpa [genHeaderLines.commaJoin] using hmem)
      | cons e2 rest =>
          simp only [genHeaderLines.commaJoin] at hmem
          rcases List.mem_append.mp hmem with hm | hm
          · rcases List.mem_append.mp hm with hm' | hm'
            · exact h e (List.mem_cons_self e (e2 :: rest)) hm'
            · simp [chars] at hm'
          · exact ih (fun x hx => h x (List.mem_cons_of_mem e hx)) hm

/-- Every generated header line starts with a hash character. -/
theorem headerLines_hash (sourceDir : Str) (outputFile : Option Str)
    (E : List Str) (rc rd : Bool) :
    ∀ l ∈ genHeaderLines sourceDir outputFile E rc rd, ∃ r, l = '#' :: r := by
  intro l hl
  cases outputFile with
  | none =>
      simp only [genHeaderLines, List.nil_append, List.cons_append,
        List.mem_cons, List.not_mem_nil, or_false, List.mem_singleton] at hl
      rcases hl with rfl | rfl | rfl | rfl | rfl | rfl | rfl <;> exact ⟨_, rfl⟩
  | some o =>
      simp only [genHeaderLines, List.nil_append, List.cons_append,
        List.mem_cons, List.not_mem_nil, or_false, List.mem_singleton,
        List.singleton_append] at hl
      rcases hl with rfl | rfl | rfl | rfl | rfl | rfl | rfl | rfl <;>
        exact ⟨_, rfl⟩

/-- Generated header lines contain no newline when the configuration
strings contain none. -/
theorem headerLines_no_nl (sourceDir : Str) (outputFile : Option Str)
    (E : List Str) (rc rd : Bool) (hsd : '\n' ∉ sourceDir)
    (hout : ∀ o, outputFile = some o → '\n' ∉ o)
    (hexts : ∀ e ∈ E, '\n' ∉ e) :
    ∀ l ∈ genHeaderLines sourceDir outputFile E rc rd, '\n' ∉ l := by
  have hjoin := commaJoin_no_nl E hexts
  have hyes : ∀ b : Bool, '\n' ∉ genHeaderLines.yesNo b := by
    intro b; cases b <;> decide
  have happ : ∀ a b : Str, '\n' ∉ a → '\n' ∉ b → '\n' ∉ a ++ b := by
    intro a b ha hb hm
    rcases List.mem_append.mp hm with h | h
    exacts [ha h, hb h]
  intro l hl
  cases outputFile with
  | none =>
      simp only [genHeaderLines, List.nil_append, List.cons_append,
        List.mem_cons, List.not_mem_nil, or_false, List.mem_singleton] at hl
      rcases hl with rfl | rfl | rfl | rfl | rfl | rfl | rfl
      · exact happ _ _ (by decide) hsd
      · exact happ _ _ (by decide) hjoin
      · exact happ _ _ (by decide) (hyes rc)
      · exact happ _ _ (by decide) (hyes rd)
      · exact happ _ _ (by decide) hjoin
      · decide
      · decide
  | some o =>
      simp only [genHeaderLines, List.nil_append, List.cons_append,
        List.mem_cons, List.not_mem_nil, or_false, List.mem_singleton,
        List.singleton_append] at hl
      rcases hl with rfl | rfl | rfl | rfl | rfl | rfl | rfl | rfl
      · exact happ _ _ (by decide) hsd
      · exact happ _ _ (by decide) (hout o rfl)
      · exact happ _ _ (by decide) hjoin
      · exact happ _ _ (by decide) (hyes rc)
      · exact happ _ _ (by decide) (hyes rd)
      · exact happ _ _ (by decide) hjoin
      · decide
      · decide

/-- Body lines of the generated manifest contain no newline. -/
theorem bodyLines_no_nl (crit : Criteria) (fuel : Nat) (ts : List FSEntry)
    (hwf : wfW fuel (sortByName ts) = true) :
    ∀ l ∈ generateLines crit fuel ts, '\n' ∉ l := by
  intro l hl
  unfold generateLines at hl
  rcases List.mem_map.mp hl with ⟨e, he, rfl⟩
  obtain ⟨⟨pre, b, hpre, hdisp⟩, hrel, _⟩ :=
    walkE_emit_ok crit fuel [] [] (sortByName ts) hwf (by decide) rfl e he
  obtain ⟨_, _, hnn⟩ := (strOkB_spec e.relPath).mp hrel
  rw [hdisp]
  intro hmem
  rcases List.mem_append.mp hmem with hm | hm
  · rcases List.mem_append.mp hm with hm' | hm'
    · have := List.all_eq_true.mp hpre _ hm'
      simp at this
    · cases b <;> simp [connector, chars] at hm'
  · exact hnn hm

/-- Parsing the exported manifest text recovers exactly the relative paths
of every emitted record, files and directories alike, in order. -/
theorem parse_generate_entries (sourceDir : Str) (outputFile : Option Str)
    (crit : Criteria) (rc rd : Bool) (fuel : Nat) (ts : List FSEntry)
    (hwf : wfW fuel (sortByName ts) = true) (hsd : '\n' ∉ sourceDir)
    (hout : ∀ o, outputFile = some o → '\n' ∉ o)
    (hexts : ∀ e ∈ crit.extensions, '\n' ∉ e) :
    (parse_tree_file (splitLines
        (generate_tree_text sourceDir outputFile crit rc rd fuel ts))).included_paths
      = (walkE crit fuel [] [] (sortByName ts)).map (fun e => e.relPath) := by
  have hemits := walkE_emit_ok crit fuel [] [] (sortByName ts) hwf (by decide) rfl
  have hheadnl := headerLines_no_nl sourceDir outputFile crit.extensions rc rd
    hsd hout hexts
  have hkeep : ∀ l ∈ genHeaderLines sourceDir outputFile crit.extensions rc rd,
      ∀ acc : TreeParse, (parseTreeLine acc l).included_paths
        = acc.included_paths := by
    intro l hl acc
    obtain ⟨r, rfl⟩ := headerLines_hash sourceDir outputFile crit.extensions
      rc rd l hl
    refine parseTreeLine_keeps_included acc _ (Or.inr ?_)
    rw [pyStrip_cons '#' r (by decide)]
    rfl
  unfold generate_tree_text
  rw [splitLines_header_block _ _ hheadnl]
  have hsplit : splitLines ('\n' :: joinNL (generateLines crit fuel ts))
      = [] :: splitLines (joinNL (generateLines crit fuel ts)) := rfl
  rw [hsplit]
  unfold parse_tree_file
  rw [List.foldl_append, List.foldl_cons]
  have hacc0 : ∀ acc : TreeParse, parseTreeLine acc [] = acc := fun acc => rfl
  rw [hacc0]
  set acc0 := List.foldl parseTreeLine initTreeParse
    (genHeaderLines sourceDir outputFile crit.extensions rc rd) with hacc0def
  have hacc0inc : acc0.included_paths = [] := by
    rw [hacc0def]
    exact foldl_proj_const (fun t => t.included_paths) _ hkeep initTreeParse
  by_cases hb : generateLines crit fuel ts = []
  · have hes : walkE crit fuel [] [] (sortByName ts) = [] := by
      have := hb
      unfold generateLines at this
      exact List.map_eq_nil_iff.mp this
    rw [hb, hes]
    simp only [joinNL, List.map_nil]
    rw [show splitLines [] = [[]] from rfl, List.foldl_cons, hacc0,
        List.foldl_nil]
    exact hacc0inc
  · rw [splitLines_joinNL _ (bodyLines_no_nl crit fuel ts hwf) hb]
    unfold generateLines
    rw [foldl_body _ hemits acc0]
    rw [show ({ acc0 with included_paths := acc0.included_paths
        ++ (walkE crit fuel [] [] (sortByName ts)).map (fun e => e.relPath)
        } : TreeParse).included_paths = acc0.included_paths
        ++ (walkE crit fuel [] [] (sortByName ts)).map (fun e => e.relPath)
      from rfl, hacc0inc, List.nil_append]

/-- C3 counterexample: the tree has a matching file (top.py) and a
non-matching file (notes.txt), as the round-trip claim requires, yet the
parsed entry set contains the directory path sub, which export listed but
did not match or count as a file, so the parsed entries do not equal the
matched file set. -/
theorem roundtrip_set_mismatch :
    has_matching_extension (chars "top.py") c3Crit.extensions = true
    ∧ has_matching_extension (chars "notes.txt") c3Crit.extensions = false
    ∧ chars "sub" ∈ (parse_tree_file (splitLines (generate_tree_text
        (chars "src") none c3Crit false false 10 c3Tree))).included_paths
    ∧ ¬ chars "sub" ∈ ((walkE c3Crit 10 [] [] (sortByName c3Tree)).filter
        (fun e => e.isFile)).map (fun e => e.relPath) := by
  decide

/-- C3 (amended): with no human edits, parsing the text produced by export
returns as entries exactly the relative paths of ALL lines the walk
listed, matched files AND non-ignored directories, in traversal order; the
parsed set equals the matched-file set only when no directory line is
present. -/
theorem roundtrip_entries_all_listed (sourceDir : Str)
    (outputFile : Option Str) (crit : Criteria) (rc rd : Bool) (fuel : Nat)
    (ts : List FSEntry) (hwf : wfW fuel (sortByName ts) = true)
    (hsd : '\n' ∉ sourceDir) (hout : ∀ o, outputFile = some o → '\n' ∉ o)
    (hexts : ∀ e ∈ crit.extensions, '\n' ∉ e) :
    (parse_tree_file (splitLines (generate_tree_text sourceDir outputFile
        crit rc rd fuel ts))).included_paths
      = (walkE crit fuel [] [] (sortByName ts)).map (fun e => e.relPath) :=
  parse_generate_entries sourceDir outputFile crit rc rd fuel ts hwf hsd
    hout hexts

/-- C3 witness: the amended round-trip evaluated on the concrete tree. -/
theorem roundtrip_entries_all_listed_witness :
    (parse_tree_file (splitLines (generate_tree_text (chars "src") none
        c3Crit false false 10 c3Tree))).included_paths
      = (walkE c3Crit 10 [] [] (sortByName c3Tree)).map (fun e => e.relPath) :=
  roundtrip_entries_all_listed (chars "src") none c3Crit false false 10
    c3Tree (by decide) (by decide) (fun o h => by cases h) (by decide)

/-- C4 counterexample: the walk lists the directory docs (a non-file
record) and parsing the exported manifest returns docs among the entries,
so parsed entries do contain directory paths. -/
theorem parse_keeps_directory_lines :
    chars "docs" ∈ (parse_tree_file (splitLines (generate_tree_text
        (chars "src") none c3Crit false false 10 c4Tree))).included_paths
    ∧ (⟨chars "└── ", chars "docs", false⟩ : Emitted)
        ∈ walkE c3Crit 10 [] [] (sortByName c4Tree) := by
  decide

/-- C4 (amended): directories listed by export are NOT dropped by parse:
every non-file record the walk emits appears with its path among the
parsed entries; directories are excluded from combining only later, by
the extension and regular-file checks of the combiner, not at parse
time. -/
theorem parsed_entries_contain_directories (sourceDir : Str)
    (outputFile : Option Str) (crit : Criteria) (rc rd : Bool) (fuel : Nat)
    (ts : List FSEntry) (hwf : wfW fuel (sortByName ts) = true)
    (hsd : '\n' ∉ sourceDir) (hout : ∀ o, outputFile = some o → '\n' ∉ o)
    (hexts : ∀ e ∈ crit.extensions, '\n' ∉ e) :
    ∀ e ∈ walkE crit fuel [] [] (sortByName ts), e.isFile = false →
      e.relPath ∈ (parse_tree_file (splitLines (generate_tree_text sourceDir
        outputFile crit rc rd fuel ts))).included_paths := by
  intro e he _
  rw [parse_generate_entries sourceDir outputFile crit rc rd fuel ts hwf hsd
    hout hexts]
  exact List.mem_map_of_mem _ he

/-- C4 witness: the directory record docs of the concrete tree appears in
the parsed entries of its exported manifest. -/
theorem parsed_entries_contain_directories_witness :
    chars "docs" ∈ (parse_tree_file (splitLines (generate_tree_text
        (chars "src") none c3Crit false false 10 c4Tree))).included_paths :=
  parsed_entries_contain_directories (chars "src") none c3Crit false false
    10 c4Tree (by decide) (by decide) (fun o h => by cases h) (by decide)
    ⟨chars "└── ", chars "docs", false⟩ (by decide) rfl

/-- takeWhile over a list all of whose members satisfy the predicate. -/
theorem takeWhile_all_true (p : Char → Bool) :
    ∀ l : Str, (∀ c ∈ l, p c = true) → List.takeWhile p l = l := by
  intro l
  induction l with
  | nil => intro _; rfl
  | cons c cs ih =>
      intro h
      rw [List.takeWhile_cons_of_pos (h c (List.mem_cons_self c cs)),
          ih (fun x hx => h x (List.mem_cons_of_mem c hx))]

/-- The last component of a slash-free string is the string itself. -/
theorem lastComp_self (n : Str) (hn : '/' ∉ n) : lastComp n = n := by
  unfold lastComp
  rw [takeWhile_all_true _ n.reverse ?_, List.reverse_reverse]
  intro c hc
  simp only [decide_eq_true_eq]
  intro rfl0
  subst rfl0
  exact hn (List.mem_reverse.mp hc)

/-- The last component after appending a slash and a slash-free name. -/
theorem lastComp_append (x n : Str) (hn : '/' ∉ n) :
    lastComp (x ++ '/' :: n) = n := by
  unfold lastComp
  have hrev : (x ++ '/' :: n).reverse = n.reverse ++ '/' :: x.reverse := by
    simp
  rw [hrev]
  have hall : ∀ c ∈ n.reverse, (fun c => decide (c ≠ '/')) c = true := by
    intro c hc
    simp only [decide_eq_true_eq]
    intro rfl0
    subst rfl0
    exact hn (List.mem_reverse.mp hc)
  have htw : List.takeWhile (fun c => decide (c ≠ '/'))
      (n.reverse ++ '/' :: x.reverse) = n.reverse := by
    rw [List.takeWhile_append,
        if_pos (by rw [takeWhile_all_true _ n.reverse hall])]
    rw [show List.takeWhile (fun c => decide (c ≠ '/')) ('/' :: x.reverse)
        = [] from List.takeWhile_cons_of_neg (by decide)]
    simp
  rw [htw, List.reverse_reverse]

/-- The last component of a joined relative path is the joined name. -/
theorem lastComp_relJoin (rdir n : Str) (hn : '/' ∉ n) :
    lastComp (relJoin rdir n) = n := by
  unfold relJoin
  by_cases he : rdir.isEmpty = true
  · rw [if_pos he]; exact lastComp_self n hn
  · rw [if_neg he]; exact lastComp_append rdir n hn

/-- Splitting an equality of slash-joined paths when the left parts have
equal length. -/
theorem slash_append_eq (a b x y : Str) (h : a ++ '/' :: x = b ++ '/' :: y)
    (heq : a.length = b.length) : a = b ∧ x = y := by
  obtain ⟨h1, h2⟩ := List.append_inj h heq
  injection h2 with _ h3
  exact ⟨h1, h3⟩

/-- Splitting an equality of slash-joined paths when the left part is
strictly shorter: the longer left part extends the shorter through the
separator. -/
theorem slash_append_lt (a b x y : Str) (h : a ++ '/' :: x = b ++ '/' :: y)
    (hlt : a.length < b.length) :
    ∃ s, b = a ++ '/' :: s ∧ x = s ++ '/' :: y := by
  have hts : b.take a.length = a := by
    have htake := congrArg (List.take a.length) h
    rw [List.take_left] at htake
    rw [List.take_append_eq_append_take,
        Nat.sub_eq_zero_of_le (le_of_lt hlt)] at htake
    simpa using htake.symm
  have hdrop := congrArg (List.drop a.length) h
  rw [List.drop_left] at hdrop
  rw [List.drop_append_eq_append_drop,
      Nat.sub_eq_zero_of_le (le_of_lt hlt), List.drop_zero] at hdrop
  have hne : b.drop a.length ≠ [] := by
    intro hnil
    have hlen := congrArg List.length hnil
    rw [List.length_drop] at hlen
    simp at hlen
    omega
  cases hd : b.drop a.length with
  | nil => exact absurd hd hne
  | cons c cs =>
      rw [hd] at hdrop
      rw [List.cons_append] at hdrop
      injection hdrop with h1 h2
      refine ⟨cs, ?_, h2⟩
      have hsplit := (List.take_append_drop a.length b).symm
      rw [hd, hts, ← h1] at hsplit
      exact hsplit

/-- Full trichotomy for equalities of slash-joined paths. -/
theorem slash_append_cases (a b x y : Str)
    (h : a ++ '/' :: x = b ++ '/' :: y) :
    (a = b ∧ x = y) ∨ (∃ s, b = a ++ '/' :: s ∧ x = s ++ '/' :: y)
      ∨ (∃ s, a = b ++ '/' :: s ∧ y = s ++ '/' :: x) := by
  rcases lt_trichotomy a.length b.length with hlt | heq | hgt
  · exact Or.inr (Or.inl (slash_append_lt a b x y h hlt))
  · exact Or.inl (slash_append_eq a b x y h heq)
  · exact Or.inr (Or.inr (slash_append_lt b a y x h.symm hgt))

/-- A slash is a member of any slash-joined extension. -/
theorem slash_mem_join (d t : Str) : '/' ∈ d ++ '/' :: t :=
  List.mem_append_right d (List.mem_cons_self '/' t)

/-- Core pruning invariant: walking a region whose relative root neither
equals the ignored directory's path nor lies beneath it never emits a
record at that path or beneath it. -/
theorem walk_avoids_ignored (crit : Criteria) (drel : Str) (hne : drel ≠ [])
    (hig : should_ignore (lastComp drel) drel crit.ignoreNames
      crit.ignorePaths = true) :
    ∀ (fuel : Nat) (rdir pre : Str) (ts : List FSEntry),
      wfW fuel ts = true → rdir ≠ drel →
      startsList (drel ++ ['/']) rdir = false →
      ∀ e ∈ walkE crit fuel rdir pre ts,
        e.relPath ≠ drel ∧ startsList (drel ++ ['/']) e.relPath = false := by
  intro fuel
  induction fuel with
  | zero =>
      intro rdir pre ts _ _ _ e he
      simp [walkE] at he
  | succ fuel ih =>
      intro rdir pre ts hwf hrne hrst e he
      have keyfacts : ∀ n : Str, goodNameB n = true →
          should_ignore n (relJoin rdir n) crit.ignoreNames
            crit.ignorePaths = false →
          relJoin rdir n ≠ drel ∧
            startsList (drel ++ ['/']) (relJoin rdir n) = false := by
        intro n hgn hnig
        obtain ⟨hnne, _, hnsl⟩ := (goodNameB_spec n).mp hgn
        constructor
        · intro heq
          rw [← heq, lastComp_relJoin rdir n hnsl, hnig] at hig
          exact Bool.false_ne_true hig
        · by_cases hst : startsList (drel ++ ['/']) (relJoin rdir n) = true
          · exfalso
            obtain ⟨t, ht⟩ := (startsList_iff (drel ++ ['/'])
              (relJoin rdir n)).mp hst
            rw [List.append_assoc, List.singleton_append] at ht
            unfold relJoin at ht
            by_cases hre : rdir.isEmpty = true
            · rw [if_pos hre] at ht
              exact hnsl (ht ▸ slash_mem_join drel t)
            · rw [if_neg hre] at ht
              rcases slash_append_cases rdir drel n t ht with
                ⟨h1, _⟩ | ⟨s, h1, h2⟩ | ⟨s, h1, _⟩
              · exact hrne h1
              · exact hnsl (h2 ▸ slash_mem_join s t)
              · have hst2 : startsList (drel ++ ['/']) rdir = true :=
                  (startsList_iff _ _).mpr ⟨s, by
                    rw [h1, List.append_assoc, List.singleton_append]⟩
                rw [hst2] at hrst
                exact absurd hrst (by decide)
          · rw [Bool.not_eq_true] at hst
            exact hst
      cases ts with
      | nil => simp [walkE] at he
      | cons t ts' =>
          cases t with
          | file n =>
              simp only [wfW, Bool.and_eq_true] at hwf
              obtain ⟨hgn, hwts⟩ := hwf
              simp only [walkE] at he
              rcases List.mem_append.mp he with h1 | h2
              · by_cases hc : (has_matching_extension n crit.extensions &&
                    !should_ignore n (relJoin rdir n) crit.ignoreNames
                      crit.ignorePaths &&
                    should_include n crit.includeNames) = true
                · rw [if_pos hc] at h1
                  rcases List.mem_singleton.mp h1 with rfl
                  have hnig : should_ignore n (relJoin rdir n)
                      crit.ignoreNames crit.ignorePaths = false := by
                    simp only [Bool.and_eq_true, Bool.not_eq_true'] at hc
                    exact hc.1.2
                  exact keyfacts n hgn hnig
                · rw [if_neg hc] at h1
                  cases h1
              · exact ih rdir pre ts' hwts hrne hrst e h2
          | dir n cs =>
              simp only [wfW, Bool.and_eq_true] at hwf
              obtain ⟨⟨hgn, hwcs⟩, hwts⟩ := hwf
              simp only [walkE] at he
              rcases List.mem_append.mp he with h1 | h2
              · by_cases hign : (!should_ignore n (relJoin rdir n)
                    crit.ignoreNames crit.ignorePaths) = true
                · rw [if_pos hign] at h1
                  have hnig : should_ignore n (relJoin rdir n)
                      crit.ignoreNames crit.ignorePaths = false := by
                    rwa [Bool.not_eq_true'] at hign
                  have hkey := keyfacts n hgn hnig
                  rcases List.mem_cons.mp h1 with rfl | h1'
                  · exact hkey
                  · exact ih (relJoin rdir n) (pre ++ indentBlock ts'.isEmpty)
                      (sortByName cs) hwcs hkey.1 hkey.2 e h1'
                · rw [if_neg hign] at h1
                  cases h1
              · exact ih rdir pre ts' hwts hrne hrst e h2

/-- C10: generate_tree_file prunes ignored directories wholesale: for a
directory whose name (its last path component) or relative path matches an
ignore rule, the walk emits no record at that path and none beneath it, so
neither the manifest lines nor the matched count (which are the map and
the file-filtered length of the emitted records) contain anything from
that subtree, regardless of the per-file filters. -/
theorem generate_skips_ignored_dirs (crit : Criteria) (fuel : Nat)
    (ts : List FSEntry) (drel : Str) (hwf : wfW fuel (sortByName ts) = true)
    (hne : drel ≠ [])
    (hig : should_ignore (lastComp drel) drel crit.ignoreNames
      crit.ignorePaths = true) :
    ∀ e ∈ walkE crit fuel [] [] (sortByName ts),
      e.relPath ≠ drel ∧ startsList (drel ++ ['/']) e.relPath = false := by
  apply walk_avoids_ignored crit drel hne hig fuel [] [] (sortByName ts) hwf
  · exact fun h => hne h.symm
  · apply startsList_nil_of_ne
    intro hnil
    have := (List.append_eq_nil.mp hnil).2
    cases this

/-- C10 witness: over the concrete tree the walk emits only app.py, and
the pruning theorem applied to that record confirms it is neither the
ignored directory nor beneath it. -/
theorem generate_skips_ignored_dirs_witness :
    (⟨chars "├── ", chars "app.py", true⟩ : Emitted).relPath
        ≠ chars "node_modules"
    ∧ startsList (chars "node_modules" ++ ['/'])
        (⟨chars "├── ", chars "app.py", true⟩ : Emitted).relPath = false :=
  generate_skips_ignored_dirs c10Crit 10 c10Tree (chars "node_modules")
    (by decide) (by decide) (by decide)
    ⟨chars "├── ", chars "app.py", true⟩ (by decide)

/-- A line not matching the source-directory key leaves that field. -/
theorem line_const_src (acc : TreeParse) (l : Str)
    (h : startsList keySourceDir (lowerStr (pyStrip l)) = false) :
    (parseTreeLine acc l).source_dir_in_file = acc.source_dir_in_file := by
  simp [parseTreeLine, h, apply_ite (fun t : TreeParse => t.source_dir_in_file)]

/-- A line not matching the output-file key leaves that field. -/
theorem line_const_out (acc : TreeParse) (l : Str)
    (h : startsList keyOutputFile (lowerStr (pyStrip l)) = false) :
    (parseTreeLine acc l).output_file_in_file = acc.output_file_in_file := by
  simp [parseTreeLine, h, apply_ite (fun t : TreeParse => t.output_file_in_file)]

/-- A line matching neither extensions key leaves that field. -/
theorem line_const_exts (acc : TreeParse) (l : Str)
    (h1 : startsList keyExtensions (lowerStr (pyStrip l)) = false)
    (h2 : startsList keyExtension (lowerStr (pyStrip l)) = false) :
    (parseTreeLine acc l).extensions_in_file = acc.extensions_in_file := by
  simp [parseTreeLine, h1, h2,
    apply_ite (fun t : TreeParse => t.extensions_in_file)]

/-- A line not matching the strip-comments key leaves that field. -/
theorem line_const_rc (acc : TreeParse) (l : Str)
    (h : startsList keyStripComments (lowerStr (pyStrip l)) = false) :
    (parseTreeLine acc l).remove_comments_in_file
      = acc.remove_comments_in_file := by
  simp [parseTreeLine, h,
    apply_ite (fun t : TreeParse => t.remove_comments_in_file)]

/-- A line not matching the remove-docstrings key leaves that field. -/
theorem line_const_rd (acc : TreeParse) (l : Str)
    (h : startsList keyRemoveDocstrings (lowerStr (pyStrip l)) = false) :
    (parseTreeLine acc l).remove_docstrings_in_file
      = acc.remove_docstrings_in_file := by
  simp [parseTreeLine, h,
    apply_ite (fun t : TreeParse => t.remove_docstrings_in_file)]

/-- A blank, comment or marker-free line leaves the entry list. -/
theorem line_const_inc (acc : TreeParse) (l : Str)
    (h : pyStrip l = [] ∨ startsList (chars "#") (pyStrip l) = true ∨
      containsSub (pyStrip l) sepMark = false) :
    (parseTreeLine acc l).included_paths = acc.included_paths := by
  rcases h with h | h | h
  · exact parseTreeLine_keeps_included acc l (Or.inl h)
  · exact parseTreeLine_keeps_included acc l (Or.inr h)
  · simp [parseTreeLine, h,
      apply_ite (fun t : TreeParse => t.included_paths)]

/-- A non-empty pattern leading a string forces the string non-empty. -/
theorem ne_nil_of_startsList (p l : Str) (hp : p ≠ [])
    (h : startsList p l = true) : l ≠ [] := by
  intro h0
  rw [h0, startsList_nil_of_ne p hp] at h
  exact Bool.false_ne_true h

/-- If two patterns both lead the same string, the shorter leads the
longer. -/
theorem startsList_trans_le (a b c : Str) (ha : startsList a c = true)
    (hb : startsList b c = true) (hle : a.length ≤ b.length) :
    startsList a b = true := by
  obtain ⟨t, ht⟩ := (startsList_iff a c).mp ha
  obtain ⟨u, hu⟩ := (startsList_iff b c).mp hb
  apply (startsList_iff a b).mpr
  refine ⟨b.drop a.length, ?_⟩
  have hcomb : a ++ t = b ++ u := by rw [← ht, ← hu]
  have htake : b.take a.length = a := by
    have h1 := congrArg (List.take a.length) hcomb
    rw [List.take_left] at h1
    rw [List.take_append_eq_append_take, Nat.sub_eq_zero_of_le hle] at h1
    simpa using h1.symm
  calc b = b.take a.length ++ b.drop a.length := (List.take_append_drop _ b).symm
    _ = a ++ b.drop a.length := by rw [htake]

/-- A line matching the source-directory key (case-insensitively on the
lowered stripped line) sets that field to the trimmed text after the
colon, overwriting whatever was there. -/
theorem line_sets_src (acc : TreeParse) (l : Str)
    (hh : startsList (chars "#") (pyStrip l) = true)
    (hk : startsList keySourceDir (lowerStr (pyStrip l)) = true) :
    parseTreeLine acc l = { acc with
      source_dir_in_file := some (pyStrip (afterColon (pyStrip l))) } := by
  have hne : pyStrip l ≠ [] := ne_nil_of_startsList _ _ (by decide) hh
  simp only [parseTreeLine]
  rw [if_neg (by simp [List.isEmpty_iff, hne]), if_pos hh, if_pos hk]

/-- Two strings of which neither leads the other cannot both lead the
same third string. -/
theorem startsList_excl (a b l : Str) (hb : startsList b l = true)
    (hab : startsList a b = false) (hba : startsList b a = false) :
    startsList a l = false := by
  by_cases ha : startsList a l = true
  · exfalso
    rcases Nat.le_total a.length b.length with hle | hle
    · rw [startsList_trans_le a b l ha hb hle] at hab
      exact absurd hab (by decide)
    · rw [startsList_trans_le b a l hb ha hle] at hba
      exact absurd hba (by decide)
  · rw [Bool.not_eq_true] at ha
    exact ha

/-- A line matching the output-file key sets that field to the trimmed
text after the colon, overwriting whatever was there. -/
theorem line_sets_out (acc : TreeParse) (l : Str)
    (hh : startsList (chars "#") (pyStrip l) = true)
    (hk : startsList keyOutputFile (lowerStr (pyStrip l)) = true) :
    parseTreeLine acc l = { acc with
      output_file_in_file := some (pyStrip (afterColon (pyStrip l))) } := by
  have hne : pyStrip l ≠ [] := ne_nil_of_startsList _ _ (by decide) hh
  have h1 : startsList keySourceDir (lowerStr (pyStrip l)) = false :=
    startsList_excl _ _ _ hk (by decide) (by decide)
  simp only [parseTreeLine]
  rw [if_neg (by simp [List.isEmpty_iff, hne]), if_pos hh,
      if_neg (by simp [h1]), if_pos hk]

/-- A line matching the extensions key overwrites that field with the
comma-split, trimmed, non-empty pieces of the text after the colon. -/
theorem line_sets_exts (acc : TreeParse) (l : Str)
    (hh : startsList (chars "#") (pyStrip l) = true)
    (hk : startsList keyExtensions (lowerStr (pyStrip l)) = true) :
    parseTreeLine acc l = { acc with
      extensions_in_file :=
        (splitChar ',' (pyStrip (afterColon (pyStrip l)))).filterMap
          (fun e => if (pyStrip e).isEmpty then none
                    else some (pyStrip e)) } := by
  have hne : pyStrip l ≠ [] := ne_nil_of_startsList _ _ (by decide) hh
  have h1 : startsList keySourceDir (lowerStr (pyStrip l)) = false :=
    startsList_excl _ _ _ hk (by decide) (by decide)
  have h2 : startsList keyOutputFile (lowerStr (pyStrip l)) = false :=
    startsList_excl _ _ _ hk (by decide) (by decide)
  simp only [parseTreeLine]
  rw [if_neg (by simp [List.isEmpty_iff, hne]), if_pos hh,
      if_neg (by simp [h1]), if_neg (by simp [h2]), if_pos hk]

/-- A line matching the legacy single-extension key with a non-empty
value overwrites the extensions field with that single value. -/
theorem line_sets_ext_legacy (acc : TreeParse) (l : Str)
    (hh : startsList (chars "#") (pyStrip l) = true)
    (hk : startsList keyExtension (lowerStr (pyStrip l)) = true)
    (hv : pyStrip (afterColon (pyStrip l)) ≠ []) :
    parseTreeLine acc l = { acc with
      extensions_in_file := [pyStrip (afterColon (pyStrip l))] } := by
  have hne : pyStrip l ≠ [] := ne_nil_of_startsList _ _ (by decide) hh
  have h1 : startsList keySourceDir (lowerStr (pyStrip l)) = false :=
    startsList_excl _ _ _ hk (by decide) (by decide)
  have h2 : startsList keyOutputFile (lowerStr (pyStrip l)) = false :=
    startsList_excl _ _ _ hk (by decide) (by decide)
  have h3 : startsList keyExtensions (lowerStr (pyStrip l)) = false :=
    startsList_excl _ _ _ hk (by decide) (by decide)
  simp only [parseTreeLine]
  rw [if_neg (by simp [List.isEmpty_iff, hne]), if_pos hh,
      if_neg (by simp [h1]), if_neg (by simp [h2]), if_neg (by simp [h3]),
      if_pos hk, if_neg (by simp [List.isEmpty_iff, hv])]

/-- A line matching the strip-comments key overwrites that field with the
yes-comparison of the lowered text after the colon. -/
theorem line_sets_rc (acc : TreeParse) (l : Str)
    (hh : startsList (chars "#") (pyStrip l) = true)
    (hk : startsList keyStripComments (lowerStr (pyStrip l)) = true) :
    parseTreeLine acc l = { acc with
      remove_comments_in_file :=
        some (lowerStr (pyStrip (afterColon (pyStrip l)))
          == chars "yes") } := by
  have hne : pyStrip l ≠ [] := ne_nil_of_startsList _ _ (by decide) hh
  have h1 : startsList keySourceDir (lowerStr (pyStrip l)) = false :=
    startsList_excl _ _ _ hk (by decide) (by decide)
  have h2 : startsList keyOutputFile (lowerStr (pyStrip l)) = false :=
    startsList_excl _ _ _ hk (by decide) (by decide)
  have h3 : startsList keyExtensions (lowerStr (pyStrip l)) = false :=
    startsList_excl _ _ _ hk (by decide) (by decide)
  have h4 : startsList keyExtension (lowerStr (pyStrip l)) = false :=
    startsList_excl _ _ _ hk (by decide) (by decide)
  simp only [parseTreeLine]
  rw [if_neg (by simp [List.isEmpty_iff, hne]), if_pos hh,
      if_neg (by simp [h1]), if_neg (by simp [h2]), if_neg (by simp [h3]),
      if_neg (by simp [h4]), if_pos hk]

/-- A line matching the remove-docstrings key overwrites that field with
the yes-comparison of the lowered text after the colon. -/
theorem line_sets_rd (acc : TreeParse) (l : Str)
    (hh : startsList (chars "#") (pyStrip l) = true)
    (hk : startsList keyRemoveDocstrings (lowerStr (pyStrip l)) = true) :
    parseTreeLine acc l = { acc with
      remove_docstrings_in_file :=
        some (lowerStr (pyStrip (afterColon (pyStrip l)))
          == chars "yes") } := by
  have hne : pyStrip l ≠ [] := ne_nil_of_startsList _ _ (by decide) hh
  have h1 : startsList keySourceDir (lowerStr (pyStrip l)) = false :=
    startsList_excl _ _ _ hk (by decide) (by decide)
  have h2 : startsList keyOutputFile (lowerStr (pyStrip l)) = false :=
    startsList_excl _ _ _ hk (by decide) (by decide)
  have h3 : startsList keyExtensions (lowerStr (pyStrip l)) = false :=
    startsList_excl _ _ _ hk (by decide) (by decide)
  have h4 : startsList keyExtension (lowerStr (pyStrip l)) = false :=
    startsList_excl _ _ _ hk (by decide) (by decide)
  have h5 : startsList keyStripComments (lowerStr (pyStrip l)) = false :=
    startsList_excl _ _ _ hk (by decide) (by decide)
  simp only [parseTreeLine]
  rw [if_neg (by simp [List.isEmpty_iff, hne]), if_pos hh,
      if_neg (by simp [h1]), if_neg (by simp [h2]), if_neg (by simp [h3]),
      if_neg (by simp [h4]), if_neg (by simp [h5]), if_pos hk]

/-- A comment line recognised by no header key changes nothing at all. -/
theorem line_comment_noop (acc : TreeParse) (l : Str)
    (hh : startsList (chars "#") (pyStrip l) = true)
    (h1 : startsList keySourceDir (lowerStr (pyStrip l)) = false)
    (h2 : startsList keyOutputFile (lowerStr (pyStrip l)) = false)
    (h3 : startsList keyExtensions (lowerStr (pyStrip l)) = false)
    (h4 : startsList keyExtension (lowerStr (pyStrip l)) = false)
    (h5 : startsList keyStripComments (lowerStr (pyStrip l)) = false)
    (h6 : startsList keyRemoveDocstrings (lowerStr (pyStrip l)) = false) :
    parseTreeLine acc l = acc := by
  have hne : pyStrip l ≠ [] := ne_nil_of_startsList _ _ (by decide) hh
  simp only [parseTreeLine]
  rw [if_neg (by simp [List.isEmpty_iff, hne]), if_pos hh,
      if_neg (by simp [h1]), if_neg (by simp [h2]), if_neg (by simp [h3]),
      if_neg (by simp [h4]), if_neg (by simp [h5]), if_neg (by simp [h6])]

/-- C9: manifest header parsing is tolerant.  Fields never mentioned stay
at their zero or absent value (none for the string and boolean fields, the
empty list for extensions and entries); every recognised key, matched
case-insensitively on the lowered line, overwrites its field so the last
occurrence wins (for the legacy single-extension key when its value is
non-empty, exactly as the source guards it); and an unrecognised comment
line changes nothing (the parser is a total function, so no input
raises). -/
theorem header_parsing_tolerant :
    (∀ L : List Str,
        (∀ l ∈ L, startsList keySourceDir (lowerStr (pyStrip l)) = false) →
        (parse_tree_file L).source_dir_in_file = none)
    ∧ (∀ L : List Str,
        (∀ l ∈ L, startsList keyOutputFile (lowerStr (pyStrip l)) = false) →
        (parse_tree_file L).output_file_in_file = none)
    ∧ (∀ L : List Str,
        (∀ l ∈ L, startsList keyExtensions (lowerStr (pyStrip l)) = false ∧
          startsList keyExtension (lowerStr (pyStrip l)) = false) →
        (parse_tree_file L).extensions_in_file = [])
    ∧ (∀ L : List Str,
        (∀ l ∈ L, startsList keyStripComments (lowerStr (pyStrip l)) = false) →
        (parse_tree_file L).remove_comments_in_file = none)
    ∧ (∀ L : List Str,
        (∀ l ∈ L,
          startsList keyRemoveDocstrings (lowerStr (pyStrip l)) = false) →
        (parse_tree_file L).remove_docstrings_in_file = none)
    ∧ (∀ L : List Str,
        (∀ l ∈ L, pyStrip l = [] ∨ startsList (chars "#") (pyStrip l) = true ∨
          containsSub (pyStrip l) sepMark = false) →
        (parse_tree_file L).included_paths = [])
    ∧ (∀ (L : List Str) (l : Str),
        startsList (chars "#") (pyStrip l) = true →
        startsList keySourceDir (lowerStr (pyStrip l)) = true →
        (parse_tree_file (L ++ [l])).source_dir_in_file
          = some (pyStrip (afterColon (pyStrip l))))
    ∧ (∀ (L : List Str) (l : Str),
        startsList (chars "#") (pyStrip l) = true →
        startsList keyOutputFile (lowerStr (pyStrip l)) = true →
        (parse_tree_file (L ++ [l])).output_file_in_file
          = some (pyStrip (afterColon (pyStrip l))))
    ∧ (∀ (L : List Str) (l : Str),
        startsList (chars "#") (pyStrip l) = true →
        startsList keyExtensions (lowerStr (pyStrip l)) = true →
        (parse_tree_file (L ++ [l])).extensions_in_file
          = (splitChar ',' (pyStrip (afterColon (pyStrip l)))).filterMap
              (fun e => if (pyStrip e).isEmpty then none
                        else some (pyStrip e)))
    ∧ (∀ (L : List Str) (l : Str),
        startsList (chars "#") (pyStrip l) = true →
        startsList keyExtension (lowerStr (pyStrip l)) = true →
        pyStrip (afterColon (pyStrip l)) ≠ [] →
        (parse_tree_file (L ++ [l])).extensions_in_file
          = [pyStrip (afterColon (pyStrip l))])
    ∧ (∀ (L : List Str) (l : Str),
        startsList (chars "#") (pyStrip l) = true →
        startsList keyStripComments (lowerStr (pyStrip l)) = true →
        (parse_tree_file (L ++ [l])).remove_comments_in_file
          = some (lowerStr (pyStrip (afterColon (pyStrip l)))
              == chars "yes"))
    ∧ (∀ (L : List Str) (l : Str),
        startsList (chars "#") (pyStrip l) = true →
        startsList keyRemoveDocstrings (lowerStr (pyStrip l)) = true →
        (parse_tree_file (L ++ [l])).remove_docstrings_in_file
          = some (lowerStr (pyStrip (afterColon (pyStrip l)))
              == chars "yes"))
    ∧ (∀ (acc : TreeParse) (l : Str),
        startsList (chars "#") (pyStrip l) = true →
        startsList keySourceDir (lowerStr (pyStrip l)) = false →
        startsList keyOutputFile (lowerStr (pyStrip l)) = false →
        startsList keyExtensions (lowerStr (pyStrip l)) = false →
        startsList keyExtension (lowerStr (pyStrip l)) = false →
        startsList keyStripComments (lowerStr (pyStrip l)) = false →
        startsList keyRemoveDocstrings (lowerStr (pyStrip l)) = false →
        parseTreeLine acc l = acc) := by
  refine ⟨?_, ?_, ?_, ?_, ?_, ?_, ?_, ?_, ?_, ?_, ?_, ?_, line_comment_noop⟩
  · intro L h
    exact foldl_proj_const (fun t => t.source_dir_in_file) L
      (fun l hl acc => line_const_src acc l (h l hl)) initTreeParse
  · intro L h
    exact foldl_proj_const (fun t => t.output_file_in_file) L
      (fun l hl acc => line_const_out acc l (h l hl)) initTreeParse
  · intro L h
    exact foldl_proj_const (fun t => t.extensions_in_file) L
      (fun l hl acc => line_const_exts acc l (h l hl).1 (h l hl).2) initTreeParse
  · intro L h
    exact foldl_proj_const (fun t => t.remove_comments_in_file) L
      (fun l hl acc => line_const_rc acc l (h l hl)) initTreeParse
  · intro L h
    exact foldl_proj_const (fun t => t.remove_docstrings_in_file) L
      (fun l hl acc => line_const_rd acc l (h l hl)) initTreeParse
  · intro L h
    exact foldl_proj_const (fun t => t.included_paths) L
      (fun l hl acc => line_const_inc acc l (h l hl)) initTreeParse
  · intro L l hh hk
    unfold parse_tree_file
    rw [List.foldl_append, List.foldl_cons, List.foldl_nil,
        line_sets_src _ l hh hk]
  · intro L l hh hk
    unfold parse_tree_file
    rw [List.foldl_append, List.foldl_cons, List.foldl_nil,
        line_sets_out _ l hh hk]
  · intro L l hh hk
    unfold parse_tree_file
    rw [List.foldl_append, List.foldl_cons, List.foldl_nil,
        line_sets_exts _ l hh hk]
  · intro L l hh hk hv
    unfold parse_tree_file
    rw [List.foldl_append, List.foldl_cons, List.foldl_nil,
        line_sets_ext_legacy _ l hh hk hv]
  · intro L l hh hk
    unfold parse_tree_file
    rw [List.foldl_append, List.foldl_cons, List.foldl_nil,
        line_sets_rc _ l hh hk]
  · intro L l hh hk
    unfold parse_tree_file
    rw [List.foldl_append, List.foldl_cons, List.foldl_nil,
        line_sets_rd _ l hh hk]

/-- C9 witness: a manifest with no source-directory header parses that
field to none; uppercase duplicates of the source-directory, extensions,
legacy extension and strip-comments keys each overwrite the earlier value
(last occurrence wins, case-insensitively); and an unrecognised comment
line is a no-op. -/
theorem header_parsing_tolerant_witness :
    (parse_tree_file [chars "# Output File: o.py"]).source_dir_in_file = none
    ∧ (parse_tree_file ([chars "# Source Directory: /a"]
        ++ [chars "# SOURCE DIRECTORY: /b"])).source_dir_in_file
        = some (pyStrip (afterColon (pyStrip (chars "# SOURCE DIRECTORY: /b"))))
    ∧ (parse_tree_file ([chars "# Extensions: .py"]
        ++ [chars "# EXTENSIONS: .md, .rst"])).extensions_in_file
        = (splitChar ',' (pyStrip (afterColon
            (pyStrip (chars "# EXTENSIONS: .md, .rst"))))).filterMap
            (fun e => if (pyStrip e).isEmpty then none else some (pyStrip e))
    ∧ (parse_tree_file ([chars "# Extension: .py"]
        ++ [chars "# EXTENSION: .md"])).extensions_in_file
        = [pyStrip (afterColon (pyStrip (chars "# EXTENSION: .md")))]
    ∧ (parse_tree_file ([chars "# Strip Comments: no"]
        ++ [chars "# STRIP COMMENTS: YES"])).remove_comments_in_file
        = some (lowerStr (pyStrip (afterColon
            (pyStrip (chars "# STRIP COMMENTS: YES")))) == chars "yes")
    ∧ parseTreeLine initTreeParse (chars "# a stray comment") = initTreeParse :=
  ⟨header_parsing_tolerant.1 [chars "# Output File: o.py"] (by decide),
   header_parsing_tolerant.2.2.2.2.2.2.1 [chars "# Source Directory: /a"]
     (chars "# SOURCE DIRECTORY: /b") (by decide) (by decide),
   header_parsing_tolerant.2.2.2.2.2.2.2.2.1 [chars "# Extensions: .py"]
     (chars "# EXTENSIONS: .md, .rst") (by decide) (by decide),
   header_parsing_tolerant.2.2.2.2.2.2.2.2.2.1 [chars "# Extension: .py"]
     (chars "# EXTENSION: .md") (by decide) (by decide) (by decide),
   header_parsing_tolerant.2.2.2.2.2.2.2.2.2.2.1 [chars "# Strip Comments: no"]
     (chars "# STRIP COMMENTS: YES") (by decide) (by decide),
   header_parsing_tolerant.2.2.2.2.2.2.2.2.2.2.2.2 initTreeParse
     (chars "# a stray comment") (by decide) (by decide) (by decide)
     (by decide) (by decide) (by decide) (by decide)⟩

end CodeBundler
